import Mathlib

/-!
Verification development for the Capital Compass data-processing core:
the tabular parser (`parseCSV`), the scoring/aggregation pipeline
(`processData`) and the exporter (`exportCompaniesToCSV`).

Modelling conventions:
* JavaScript numbers are modelled by `JsNum := Option ℚ`: `some q` is an
  ordinary finite value, `none` is `NaN`.  Arithmetic propagates `NaN`
  and `===`-comparison with `NaN` is false, as in JavaScript.
  Infinities do not arise in the pipeline's reachable arithmetic and are
  outside the model.
* Strings are processed as `List Char`; `String` appears only in record
  fields and at the outer interfaces.
* `parseInt` / `parseFloat` are modelled as prefix parsers (with sign,
  decimal point, exponent and the `0x` radix prefix of `parseInt`);
  the special literal `Infinity` is not modelled.
* `new Date().getFullYear()` is passed to `processData` as an explicit
  `currentYear` argument; `new Date(s).getFullYear()` on a founding-date
  string is modelled for the ISO `YYYY…` format (a four-digit year
  prefix), other date formats parse to `NaN` as unknown.
* JavaScript's `Array.prototype.sort` is stable; it is modelled by a
  stable insertion sort.
-/

namespace CapitalCompass

set_option maxRecDepth 2000

set_option maxHeartbeats 1000000

/-- JavaScript number: `some q` is a finite value, `none` is `NaN`. -/
abbrev JsNum : Type := Option ℚ

/-- Lift a binary rational operation to `JsNum`, propagating `NaN`. -/
def jsBin (f : ℚ → ℚ → ℚ) : JsNum → JsNum → JsNum
  | some a, some b => some (f a b)
  | _, _ => none

def jsAdd : JsNum → JsNum → JsNum := jsBin (· + ·)

def jsSub : JsNum → JsNum → JsNum := jsBin (· - ·)

def jsMul : JsNum → JsNum → JsNum := jsBin (· * ·)

/-- Division.  A zero divisor yields `none`; in JavaScript `x / 0` is an
infinity, but every division performed by the pipeline has been guarded
against a zero divisor, so this case is unreachable in our uses. -/
def jsDiv : JsNum → JsNum → JsNum
  | some a, some b => if b = 0 then none else some (a / b)
  | _, _ => none

/-- Strict equality `===` on numbers: false whenever an operand is `NaN`. -/
def jsEqB : JsNum → JsNum → Bool
  | some a, some b => decide (a = b)
  | _, _ => false

/-- `Math.max` on two values (`NaN`-absorbing). -/
def jsMax : JsNum → JsNum → JsNum
  | some a, some b => some (max a b)
  | _, _ => none

/-- `Math.min` on two values (`NaN`-absorbing). -/
def jsMin : JsNum → JsNum → JsNum
  | some a, some b => some (min a b)
  | _, _ => none

/-- `Math.max(...list, init)`. -/
def jsMaxList (l : List JsNum) (init : JsNum) : JsNum := l.foldr jsMax init

/-- `Math.min(...list, init)`. -/
def jsMinList (l : List JsNum) (init : JsNum) : JsNum := l.foldr jsMin init

/-- The `normalize` helper of the scoring engine. -/
def jsNormalize (val mn mx : JsNum) : JsNum :=
  if jsEqB mx mn then some 0 else jsDiv (jsSub val mn) (jsSub mx mn)

/-! String utilities mirroring the JavaScript string operations used. -/

/-- Both-ends whitespace trim (`String.prototype.trim`). -/
def trimL (l : List Char) : List Char :=
  ((l.dropWhile Char.isWhitespace).reverse.dropWhile Char.isWhitespace).reverse

/-- Drop one leading quote character if present. -/
def dropLeadQuote : List Char → List Char
  | '"' :: rest => rest
  | l => l

/-- Drop one trailing quote character if present. -/
def dropTrailQuote (l : List Char) : List Char :=
  (dropLeadQuote l.reverse).reverse

/-- The `replace(/^"|"$/g, '')` idiom: strip one leading and one
trailing quote. -/
def stripQuotes (l : List Char) : List Char :=
  dropTrailQuote (dropLeadQuote l)

/-- Substring containment (`String.prototype.includes`). -/
def containsL (needle : List Char) : List Char → Bool
  | [] => needle.isEmpty
  | c :: rest => needle.isPrefixOf (c :: rest) || containsL needle rest

/-- Lower-casing of a character list (`toLowerCase`; the inputs involved
are ASCII, where `Char.toLower` agrees with JavaScript). -/
def lowerL (l : List Char) : List Char := l.map Char.toLower

/-- Remove all commas (`replace(/,/g, '')`). -/
def removeCommas (l : List Char) : List Char := l.filter (fun c => c ≠ ',')

/-! Number parsing (`parseInt`, `parseFloat`). -/

def digitVal (c : Char) : ℕ := c.toNat - 48

def isHexDigitC (c : Char) : Bool :=
  c.isDigit || ('a' ≤ c && c ≤ 'f') || ('A' ≤ c && c ≤ 'F')

def hexVal (c : Char) : ℕ :=
  if c.isDigit then digitVal c
  else if 'a' ≤ c && c ≤ 'f' then c.toNat - 87
  else c.toNat - 55

/-- Read a maximal decimal-digit prefix; returns the value, the number
of digits consumed and the rest. -/
def readDigits : List Char → ℕ → ℕ → ℕ × ℕ × List Char
  | c :: rest, acc, n =>
    if c.isDigit then readDigits rest (acc * 10 + digitVal c) (n + 1)
    else (acc, n, c :: rest)
  | [], acc, n => (acc, n, [])

/-- Read a maximal hexadecimal-digit prefix. -/
def readHexDigits : List Char → ℕ → ℕ → ℕ × ℕ × List Char
  | c :: rest, acc, n =>
    if isHexDigitC c then readHexDigits rest (acc * 16 + hexVal c) (n + 1)
    else (acc, n, c :: rest)
  | [], acc, n => (acc, n, [])

/-- Unsigned part of `parseInt`: decimal, or hexadecimal after a `0x`
prefix.  `NaN` when no digit is consumed. -/
def parseIntBody : List Char → JsNum
  | '0' :: 'x' :: rest =>
    let r := readHexDigits rest 0 0
    if r.2.1 = 0 then none else some (r.1 : ℚ)
  | '0' :: 'X' :: rest =>
    let r := readHexDigits rest 0 0
    if r.2.1 = 0 then none else some (r.1 : ℚ)
  | l =>
    let r := readDigits l 0 0
    if r.2.1 = 0 then none else some (r.1 : ℚ)

/-- `parseInt(s)` (radix auto-detection, sign, leading whitespace). -/
def jsParseIntL (l : List Char) : JsNum :=
  match l.dropWhile Char.isWhitespace with
  | '-' :: rest => jsMul (some (-1)) (parseIntBody rest)
  | '+' :: rest => parseIntBody rest
  | l1 => parseIntBody l1

/-- Scale factor from an exponent suffix; an exponent without digits
is ignored (factor 1), as `parseFloat` backtracks over it. -/
def expFactor (l : List Char) : ℚ :=
  match l with
  | '-' :: r => let rd := readDigits r 0 0
                if rd.2.1 = 0 then 1 else (10 : ℚ) ^ (-(rd.1 : ℤ))
  | '+' :: r => let rd := readDigits r 0 0
                if rd.2.1 = 0 then 1 else (10 : ℚ) ^ ((rd.1 : ℤ))
  | r => let rd := readDigits r 0 0
         if rd.2.1 = 0 then 1 else (10 : ℚ) ^ ((rd.1 : ℤ))

/-- Mantissa and optional exponent of `parseFloat` (no sign). -/
def parseFloatBody (l : List Char) : JsNum :=
  let ri := readDigits l 0 0
  let ipart := ri.1
  let n1 := ri.2.1
  let afterInt := ri.2.2
  let mant : JsNum :=
    match afterInt with
    | '.' :: rest2 =>
      let rf := readDigits rest2 0 0
      if n1 = 0 && rf.2.1 = 0 then none
      else some ((ipart : ℚ) + (rf.1 : ℚ) / (10 : ℚ) ^ rf.2.1)
    | _ => if n1 = 0 then none else some (ipart : ℚ)
  match mant with
  | none => none
  | some m =>
    let afterMant :=
      match afterInt with
      | '.' :: rest2 => (readDigits rest2 0 0).2.2
      | _ => afterInt
    match afterMant with
    | 'e' :: rest3 => some (m * expFactor rest3)
    | 'E' :: rest3 => some (m * expFactor rest3)
    | _ => some m

/-- `parseFloat(s)` (leading whitespace, sign, decimal point, exponent). -/
def jsParseFloatL (l : List Char) : JsNum :=
  match l.dropWhile Char.isWhitespace with
  | '-' :: rest => jsMul (some (-1)) (parseFloatBody rest)
  | '+' :: rest => parseFloatBody rest
  | l1 => parseFloatBody l1

/-! Digit rendering (template literals and `toString` on numbers). -/

def digitChar (n : ℕ) : Char := Char.ofNat (48 + n)

/-- Decimal digits of a natural number, with structural fuel recursion
(any fuel above the digit count yields the digits). -/
def natCharsAux : ℕ → ℕ → List Char
  | 0, _ => []
  | fuel + 1, n =>
    if n < 10 then [digitChar n]
    else natCharsAux fuel (n / 10) ++ [digitChar (n % 10)]

/-- Decimal digits of a natural number. -/
def natChars (n : ℕ) : List Char := natCharsAux (n + 1) n

/-- Decimal rendering of an integer. -/
def intChars (i : ℤ) : List Char :=
  if i < 0 then '-' :: natChars i.natAbs else natChars i.natAbs

/-- Two-digit zero padding (`padStart(2, '0')`). -/
def pad2 (n : ℕ) : List Char :=
  if n < 10 then '0' :: natChars n else natChars n

/-! Date handling.  `new Date(s)` is modelled for ISO-style strings: a
four-digit year, optionally followed by `-MM` and `-DD`.  Strings of any
other shape are treated as unparseable (`none`), standing for the
engine-dependent `Invalid Date`. -/

/-- Year of `new Date(s)` for an ISO-style string. -/
def jsDateYear (l : List Char) : Option ℤ :=
  match l with
  | a :: b :: c :: d :: rest =>
    if a.isDigit && b.isDigit && c.isDigit && d.isDigit then
      match rest with
      | [] => some ((digitVal a * 1000 + digitVal b * 100 + digitVal c * 10 + digitVal d : ℕ) : ℤ)
      | '-' :: _ => some ((digitVal a * 1000 + digitVal b * 100 + digitVal c * 10 + digitVal d : ℕ) : ℤ)
      | _ => none
    else none
  | _ => none

/-- Month (1-based, as `getMonth() + 1`) of `new Date(s)` for an
ISO-style string; a bare year denotes January. -/
def jsDateMonth (l : List Char) : Option ℕ :=
  match l with
  | _ :: _ :: _ :: _ :: rest =>
    match rest with
    | [] => some 1
    | '-' :: m1 :: m2 :: rest2 =>
      if m1.isDigit && m2.isDigit && 1 ≤ digitVal m1 * 10 + digitVal m2 &&
          digitVal m1 * 10 + digitVal m2 ≤ 12 then
        match rest2 with
        | [] => some (digitVal m1 * 10 + digitVal m2)
        | '-' :: _ => some (digitVal m1 * 10 + digitVal m2)
        | _ => none
      else none
    | _ => none
  | _ => none

/-- The `formatDate` helper: `MM/YYYY`, or empty when the date is absent
or unparseable. -/
def formatDateL (dateStr : Option String) : List Char :=
  match dateStr with
  | none => []
  | some s =>
    if s = "" then [] else
    match jsDateYear s.toList, jsDateMonth s.toList with
    | some y, some m => pad2 m ++ '/' :: intChars y
    | _, _ => []

/-! The data model.  `Raw` holds the string fields of a raw CSV record
that the pipeline reads; every field is optional (`none` models an
absent column) except the organization name, which the source
dereferences unconditionally in the exporter.  Unused pass-through
columns are irrelevant to every claim and are omitted. -/

structure Raw where
  organizationName : String := ""
  orgNameUrl : Option String := none
  description : Option String := none
  fullDescription : Option String := none
  foundedDate : Option String := none
  numberOfEmployees : Option String := none
  totalFundingUsd : Option String := none
  numberOfFundingRounds : Option String := none
  operatingStatus : Option String := none
  lastFundingType : Option String := none
  numberOfArticles : Option String := none
  cbRank : Option String := none
  top5Investors : Option String := none
  leadInvestors : Option String := none
  investorsField : Option String := none
  acquiredBy : Option String := none
  exitDate : Option String := none
  closedDate : Option String := none
  headquartersLocation : Option String := none
  industries : Option String := none
  deriving Repr, DecidableEq

/-- The `x || d` defaulting idiom on string fields: absent and empty
are both falsy. -/
def orDefault (v : Option String) (d : String) : String :=
  match v with
  | none => d
  | some s => if s = "" then d else s

/-- The `parseEmployeeCount` helper (median of a head-count range). -/
def parseEmployeeCount (range : Option String) : JsNum :=
  match range with
  | none => some 0
  | some s =>
    if s = "" then some 0 else
    let l := s.toList
    if l.contains '+' then jsAdd (jsParseIntL l) (some 10)
    else if l.contains '-' then
      match (List.splitOn '-' l).map (fun seg => jsParseIntL (removeCommas seg)) with
      | a :: b :: _ => jsDiv (jsAdd a b) (some 2)
      | _ => none
    else some ((jsParseIntL l).getD 0)

/-- Set-based first-occurrence deduplication (`new Set` iteration
order). -/
def dedupAux (seen : List String) : List String → List String
  | [] => []
  | x :: rest =>
    if x ∈ seen then dedupAux seen rest else x :: dedupAux (x :: seen) rest

def dedupKeepFirst (l : List String) : List String := dedupAux [] l

/-- The `extractInvestors` helper: join the three investor fields,
split on commas, clean each name, drop short or undisclosed entries,
deduplicate. -/
def extractInvestors (r : Raw) : List String :=
  let present := ([r.top5Investors, r.leadInvestors, r.investorsField].filterMap
    (fun o => match o with
      | some s => if s = "" then none else some s
      | none => none))
  let rawList := List.intercalate [','] (present.map String.toList)
  dedupKeepFirst
    (((List.splitOn ',' rawList).map (fun cell => String.mk (stripQuotes (trimL cell)))).filter
      (fun s => 2 < s.length && !containsL "undisclosed".toList (lowerL s.toList)))

/-! Theme classification.  Each category regex of the source is an
alternation of plain keywords, except the `ai\b` alternative of the AI
category, which requires a word boundary after `ai`. -/

def isWordChar (c : Char) : Bool := c.isAlphanum || c = '_'

/-- Containment of `ai` followed by a word boundary (`/ai\b/`). -/
def hasAiB : List Char → Bool
  | 'a' :: 'i' :: rest =>
    (match rest with
     | [] => true
     | d :: _ => !isWordChar d) || hasAiB ('i' :: rest)
  | _ :: rest => hasAiB rest
  | [] => false

/-- Containment of any keyword of a list. -/
def anyKw (t : List Char) (kws : List String) : Bool :=
  kws.any (fun k => containsL k.toList t)

def isAIText (t : List Char) : Bool :=
  hasAiB t || anyKw t ["artificial intelligence", "machine learning",
    "deep learning", "llm", "nlp", "genai", "neural network", "gpt",
    "computer vision"]

def isClimateText (t : List Char) : Bool :=
  anyKw t ["climate", "carbon", "emission", "renewable", "solar",
    "battery", "sustainable", "energy", "clean tech", "green",
    "environment", "wind", "hydro"]

def isFintechText (t : List Char) : Bool :=
  anyKw t ["fintech", "payment", "lending", "banking", "crypto",
    "wallet", "neobank", "insurance", "wealth", "trading", "blockchain",
    "defi"]

def isHealthcareText (t : List Char) : Bool :=
  anyKw t ["biotech", "health", "pharma", "medical", "therapeutics",
    "biology", "patient", "doctor", "care", "clinic", "drug", "genomic",
    "life science"]

def isSaaSText (t : List Char) : Bool :=
  anyKw t ["enterprise", "saas", "b2b", "software", "cloud",
    "automation", "workflow", "productivity", "crm", "erp", "platform",
    "infrastructure", "api"]

def isConsumerText (t : List Char) : Bool :=
  anyKw t ["b2c", "consumer", "retail", "e-commerce", "social", "app",
    "marketplace", "brand", "fashion", "food", "d2c", "subscription",
    "media"]

/-- Lower-cased concatenation of short and long description. -/
def themeText (r : Raw) : List Char :=
  lowerL ((orDefault r.description "").toList ++ ' ' :: (orDefault r.fullDescription "").toList)

structure Themes where
  ai : Bool
  climate : Bool
  fintech : Bool
  healthcare : Bool
  saas : Bool
  consumer : Bool
  deriving Repr, DecidableEq

def themesOf (r : Raw) : Themes :=
  let t := themeText r
  { ai := isAIText t
    climate := isClimateText t
    fintech := isFintechText t
    healthcare := isHealthcareText t
    saas := isSaaSText t
    consumer := isConsumerText t }

def anyTheme (th : Themes) : Bool :=
  th.ai || th.climate || th.fintech || th.healthcare || th.saas || th.consumer

/-- The stage-score assignment for the potential score: a chain of
independent `if` statements reassigning `stageScore`, so a later match
overwrites an earlier one. -/
def stageScoreOf (stage : List Char) : ℚ :=
  let s1 : ℚ := if containsL "series a".toList stage then 7/10 else 3/10
  let s2 : ℚ :=
    if containsL "series b".toList stage || containsL "series c".toList stage then 9/10 else s1
  if containsL "ipo".toList stage || containsL "acquired".toList stage then 1/2 else s2

/-! Scored companies. -/

structure Scores where
  funding : JsNum
  operations : JsNum
  brandTrend : JsNum
  potential : JsNum
  comprehensive : JsNum
  deriving Repr, DecidableEq

structure AcquisitionStatus where
  isAcquiredOrClosed : Bool
  label : String
  color : String
  deriving Repr, DecidableEq

structure ScoredCompany where
  raw : Raw
  id : String
  scores : Scores
  themes : Themes
  acquisitionStatus : Option AcquisitionStatus := none
  deriving Repr, DecidableEq

/-- Normalized numeric fields attached to a record (step 1 of
`processData`). -/
structure NormRec where
  raw : Raw
  fundAmt : JsNum
  articles : JsNum
  rank : JsNum
  rounds : JsNum
  deriving Repr, DecidableEq

def normalizeRecord (c : Raw) : NormRec :=
  { raw := c
    fundAmt := jsParseFloatL (orDefault c.totalFundingUsd "0").toList
    articles := jsParseIntL (orDefault c.numberOfArticles "0").toList
    rank := jsParseIntL (removeCommas (orDefault c.cbRank "100000").toList)
    rounds := jsParseIntL (orDefault c.numberOfFundingRounds "1").toList }

/-- Batch-wide extrema with their floor/ceiling fallbacks. -/
structure BatchStats where
  maxFund : JsNum
  minFund : JsNum
  maxArticles : JsNum
  maxRounds : JsNum
  minRank : JsNum
  maxRank : JsNum
  deriving Repr, DecidableEq

def batchStatsOf (rs : List NormRec) : BatchStats :=
  { maxFund := jsMaxList (rs.map (fun r => r.fundAmt)) (some 1)
    minFund := jsMinList (rs.map (fun r => r.fundAmt)) (some 0)
    maxArticles := jsMaxList (rs.map (fun r => r.articles)) (some 1)
    maxRounds := jsMaxList (rs.map (fun r => r.rounds)) (some 1)
    minRank := jsMinList (rs.map (fun r => r.rank)) (some 1)
    maxRank := jsMaxList (rs.map (fun r => r.rank)) (some 100000) }

/-- Step 2 of `processData`: score one company against the batch
statistics (`idx` is the array index used for the id). -/
def scoreCompany (st : BatchStats) (idx : ℕ) (c : NormRec) : ScoredCompany :=
  let th := themesOf c.raw
  let normAmt := jsNormalize c.fundAmt st.minFund st.maxFund
  let normRounds := jsNormalize c.rounds (some 0) st.maxRounds
  let fundingScore := jsMul (jsAdd (jsMul normAmt (some (7/10))) (jsMul normRounds (some (3/10)))) (some 100)
  let employeeMedian := parseEmployeeCount c.raw.numberOfEmployees
  let normEmp := jsDiv (jsMin employeeMedian (some 500)) (some 500)
  let isActive : ℚ := if orDefault c.raw.operatingStatus "Active" = "Active" then 1 else 0
  let opsScore := jsMul (jsAdd (jsMul normEmp (some (6/10))) (some (isActive * (4/10)))) (some 100)
  let normRank := jsSub (some 1) (jsNormalize c.rank st.minRank st.maxRank)
  let normArticles := jsNormalize c.articles (some 0) st.maxArticles
  let keywordBonus : ℚ := if anyTheme th then 2/10 else 0
  let brandTrendScore :=
    jsMul (jsMin (jsAdd (jsAdd (jsMul normRank (some (1/2))) (jsMul normArticles (some (3/10)))) (some keywordBonus)) (some 1)) (some 100)
  let stage := lowerL (orDefault c.raw.lastFundingType "").toList
  let stageScore := stageScoreOf stage
  let potentialScore :=
    jsMul (jsAdd (jsAdd (some (stageScore * (4/10))) (jsMul (jsDiv fundingScore (some 100)) (some (3/10)))) (jsMul (jsDiv brandTrendScore (some 100)) (some (3/10)))) (some 100)
  let comprehensive := jsDiv (jsAdd (jsAdd (jsAdd fundingScore opsScore) brandTrendScore) potentialScore) (some 4)
  let opStatus := lowerL (orDefault c.raw.operatingStatus "").toList
  let acquisitionStatus : Option AcquisitionStatus :=
    if opStatus = "closed".toList then
      some { isAcquiredOrClosed := true
             label := String.mk (trimL ("Closed ".toList ++ formatDateL c.raw.closedDate))
             color := "bg-rose-100 text-rose-700 border-rose-200" }
    else if opStatus = "acquired".toList ||
        (match c.raw.acquiredBy with
         | some s => decide (1 < s.length)
         | none => false) then
      let byPart :=
        match c.raw.acquiredBy with
        | some s => if s = "" then [] else " by ".toList ++ s.toList
        | none => []
      some { isAcquiredOrClosed := true
             label := String.mk (trimL ("Acquired".toList ++ byPart ++ ' ' :: formatDateL c.raw.exitDate))
             color := "bg-purple-100 text-purple-700 border-purple-200" }
    else none
  { raw := c.raw
    id := String.mk ("comp-".toList ++ natChars idx)
    scores :=
      { funding := fundingScore
        operations := opsScore
        brandTrend := brandTrendScore
        potential := potentialScore
        comprehensive := comprehensive }
    themes := th
    acquisitionStatus := acquisitionStatus }

/-! Stable sorting.  `Array.prototype.sort` is stable; a numeric
comparator `(a, b) => f(b) - f(a)` sorts descending by `f` keeping the
original order of ties.  It is modelled by insertion sort with a
"may-precede" boolean relation that holds on ties. -/

def insertBy {α : Type} (le : α → α → Bool) (x : α) : List α → List α
  | [] => [x]
  | y :: ys => if le x y then x :: y :: ys else y :: insertBy le x ys

def insSortBy {α : Type} (le : α → α → Bool) : List α → List α
  | [] => []
  | x :: xs => insertBy le x (insSortBy le xs)

/-- Numeric `≤` as used by sort comparators; false on `NaN` (the
source's comparator is undefined on `NaN`, which no claim exercises). -/
def jsLeB : JsNum → JsNum → Bool
  | some a, some b => decide (a ≤ b)
  | _, _ => false

/-! Association-list model of a JavaScript `Map` (iteration follows
insertion order; `set` of an existing key keeps its position). -/

/-- Update the value at `k` in place, or append `(k, upd init)` when `k`
is absent: the `if (!m.has(k)) m.set(k, init); mutate m.get(k)` idiom. -/
def upsertA {κ σ : Type} [DecidableEq κ] (k : κ) (init : σ) (upd : σ → σ) :
    List (κ × σ) → List (κ × σ)
  | [] => [(k, upd init)]
  | (k', v) :: rest =>
    if k' = k then (k', upd v) :: rest else (k', v) :: upsertA k init upd rest

/-- `Map.prototype.set`. -/
def mapSet {κ σ : Type} [DecidableEq κ] (k : κ) (v : σ) (m : List (κ × σ)) :
    List (κ × σ) :=
  upsertA k v (fun _ => v) m

/-! Step 3 of `processData`: trend aggregation by founding year. -/

/-- Founding year as computed by the source: 0 unless the field is
present, non-empty and parses to a date. -/
def yearOfRecord (r : Raw) : ℤ :=
  match r.foundedDate with
  | none => 0
  | some s =>
    if s = "" then 0 else
    match jsDateYear s.toList with
    | some y => y
    | none => 0

structure TCounts where
  AI : ℕ := 0
  Climate : ℕ := 0
  Fintech : ℕ := 0
  Healthcare : ℕ := 0
  SaaS : ℕ := 0
  Consumer : ℕ := 0
  count : ℕ := 0
  deriving Repr, DecidableEq

def bumpTCounts (th : Themes) (e : TCounts) : TCounts :=
  { AI := e.AI + (if th.ai then 1 else 0)
    Climate := e.Climate + (if th.climate then 1 else 0)
    Fintech := e.Fintech + (if th.fintech then 1 else 0)
    Healthcare := e.Healthcare + (if th.healthcare then 1 else 0)
    SaaS := e.SaaS + (if th.saas then 1 else 0)
    Consumer := e.Consumer + (if th.consumer then 1 else 0)
    count := e.count + 1 }

def trendStep (currentYear : ℤ) (m : List (ℤ × TCounts)) (c : ScoredCompany) :
    List (ℤ × TCounts) :=
  let year := yearOfRecord c.raw
  if 1990 < year ∧ year ≤ currentYear then upsertA year {} (bumpTCounts c.themes) m
  else m

structure ThemeTrend where
  year : ℤ
  AI : ℚ
  Climate : ℚ
  Fintech : ℚ
  Healthcare : ℚ
  SaaS : ℚ
  Consumer : ℚ
  deriving Repr, DecidableEq

/-- Rounding to one decimal: `parseFloat(x.toFixed(1))` for the
nonnegative values produced here (ties round up, as `toFixed` picks the
larger candidate). -/
def round1 (q : ℚ) : ℚ := (⌊q * 10 + 1/2⌋ : ℚ) / 10

/-- One theme percentage of a year bucket. -/
def pct (a cnt : ℕ) : ℚ := round1 ((a : ℚ) / (cnt : ℚ) * 100)

def mkTrend (p : ℤ × TCounts) : ThemeTrend :=
  { year := p.1
    AI := pct p.2.AI p.2.count
    Climate := pct p.2.Climate p.2.count
    Fintech := pct p.2.Fintech p.2.count
    Healthcare := pct p.2.Healthcare p.2.count
    SaaS := pct p.2.SaaS p.2.count
    Consumer := pct p.2.Consumer p.2.count }

/-! Step 4 of `processData`: investor aggregation. -/

structure ThemeTally where
  AI : ℕ := 0
  Climate : ℕ := 0
  Fintech : ℕ := 0
  Healthcare : ℕ := 0
  SaaS : ℕ := 0
  Consumer : ℕ := 0
  deriving Repr, DecidableEq

def bumpTally (th : Themes) (t : ThemeTally) : ThemeTally :=
  { AI := t.AI + (if th.ai then 1 else 0)
    Climate := t.Climate + (if th.climate then 1 else 0)
    Fintech := t.Fintech + (if th.fintech then 1 else 0)
    Healthcare := t.Healthcare + (if th.healthcare then 1 else 0)
    SaaS := t.SaaS + (if th.saas then 1 else 0)
    Consumer := t.Consumer + (if th.consumer then 1 else 0) }

structure InvData where
  count : ℕ := 0
  tally : ThemeTally := {}
  portfolio : List (String × List String) := []
  deriving Repr, DecidableEq

/-- Theme names active on a company, in the source's push order. -/
def activeThemes (th : Themes) : List String :=
  (if th.ai then ["AI"] else []) ++
  (if th.climate then ["Climate"] else []) ++
  (if th.fintech then ["Fintech"] else []) ++
  (if th.healthcare then ["Healthcare"] else []) ++
  (if th.saas then ["SaaS"] else []) ++
  (if th.consumer then ["Consumer"] else [])

/-- Per-investor update contributed by one company record. -/
def invUpdate (c : ScoredCompany) (e : InvData) : InvData :=
  { count := e.count + 1
    tally := bumpTally c.themes e.tally
    portfolio := mapSet c.raw.organizationName (activeThemes c.themes) e.portfolio }

def investorStep (m : List (String × InvData)) (c : ScoredCompany) :
    List (String × InvData) :=
  (extractInvestors c.raw).foldl (fun m' name => upsertA name {} (invUpdate c) m') m

structure PortfolioItem where
  name : String
  themes : List String
  deriving Repr, DecidableEq

structure InvestorStat where
  name : String
  count : ℕ
  topThemes : List String
  portfolio : List PortfolioItem
  deriving Repr, DecidableEq

/-- The per-entity tallies in `Object.entries` order of the source's
`themeCounts` literal. -/
def tallyEntries (t : ThemeTally) : List (String × ℕ) :=
  [("AI", t.AI), ("Climate", t.Climate), ("Fintech", t.Fintech),
   ("Healthcare", t.Healthcare), ("SaaS", t.SaaS), ("Consumer", t.Consumer)]

def mkInvestorStat (name : String) (d : InvData) : InvestorStat :=
  { name := name
    count := d.count
    topThemes :=
      (((insSortBy (fun a b => b.2 ≤ a.2) (tallyEntries d.tally)).filter
        (fun t => 0 < t.2)).take 3).map (fun t => t.1)
    portfolio := d.portfolio.map (fun p => { name := p.1, themes := p.2 }) }

structure PipelineOutput where
  companies : List ScoredCompany
  trends : List ThemeTrend
  investors : List InvestorStat
  deriving Repr, DecidableEq

/-- Map with the element index (`array.map((c, idx) => …)`), starting
at a given index. -/
def mapIdxFrom {α β : Type} (f : ℕ → α → β) : ℕ → List α → List β
  | _, [] => []
  | i, x :: xs => f i x :: mapIdxFrom f (i + 1) xs

/-- The `processData` scoring engine.  `currentYear` stands for the
`new Date().getFullYear()` read in the trend filter. -/
def processData (currentYear : ℤ) (rawData : List Raw) : PipelineOutput :=
  let processedTemp := rawData.map normalizeRecord
  let st := batchStatsOf processedTemp
  let scored := mapIdxFrom (fun i c => scoreCompany st i c) 0 processedTemp
  let trends :=
    insSortBy (fun a b => a.year ≤ b.year)
      ((scored.foldl (trendStep currentYear) []).map mkTrend)
  let investors :=
    (insSortBy (fun a b => b.count ≤ a.count)
      ((scored.foldl investorStep []).map (fun p => mkInvestorStat p.1 p.2))).take 50
  let companiesSorted :=
    insSortBy (fun a b => jsLeB b.scores.comprehensive a.scores.comprehensive) scored
  { companies := companiesSorted, trends := trends, investors := investors }

/-! The tabular parser `parseCSV`. -/

/-- Cell cleanup: `trim()` then strip one pair of outer quotes. -/
def cleanCell (cell : List Char) : List Char := stripQuotes (trimL cell)

/-- One step of the character-by-character row scanner, on the state
`(inQuote, currentCell, row)`: a quote character toggles the quote state
(and is not kept), a comma outside quotes ends the cell, anything else
is accumulated. -/
def scanStep (s : Bool × List Char × List (List Char)) (ch : Char) :
    Bool × List Char × List (List Char) :=
  if ch = '"' then (!s.1, s.2.1, s.2.2)
  else if ch = ',' && !s.1 then (s.1, [], s.2.2 ++ [cleanCell s.2.1])
  else (s.1, s.2.1 ++ [ch], s.2.2)

/-- Scan a line into its cells (the loop plus the final push). -/
def scanRowCells (l : List Char) : List (List Char) :=
  let s := l.foldl scanStep (false, [], [])
  s.2.2 ++ [cleanCell s.2.1]

/-- Object construction `headers.forEach((h, idx) => obj[h] = row[idx])`:
a later duplicate header overwrites the earlier value. -/
def mkRecordObj (headers row : List String) : List (String × String) :=
  (headers.zip row).foldl (fun o p => mapSet p.1 p.2 o) []

/-- The `parseCSV` helper on character lists (`lines[0]` of a list of
length at least 2 is `headD`). -/
def parseCSVL (text : List Char) : List (List (String × String)) :=
  let lines := (List.splitOn '\n' text).filter (fun l => trimL l ≠ [])
  if lines.length < 2 then []
  else
    let headers := (List.splitOn ',' (lines.headD [])).map (fun h => String.mk (cleanCell h))
    (lines.drop 1).foldl (fun data line =>
      let row := (scanRowCells line).map String.mk
      if row.length = headers.length then data ++ [mkRecordObj headers row]
      else data) []

def parseCSV (text : String) : List (List (String × String)) :=
  parseCSVL text.toList

/-! The exporter `exportCompaniesToCSV`.  The source builds the CSV text
and then hands it to DOM glue (`Blob` / anchor click) for download; the
model is the text. -/

/-- `replace(/"/g, '""')`. -/
def dquoteChars (l : List Char) : List Char :=
  l.flatMap (fun c => if c = '"' then ['"', '"'] else [c])

/-- Wrap a field body in quotes. -/
def quoteWrap (l : List Char) : List Char := '"' :: (l ++ ['"'])

/-- `toFixed(2)`: round to the nearest hundredth, ties toward the larger
candidate; `NaN` prints as `NaN`.  (The `-0.00` sign of tiny negative
values is not modelled; no claim depends on it.) -/
def toFixed2 : JsNum → List Char
  | none => "NaN".toList
  | some q =>
    let n : ℤ := ⌊q * 100 + 1/2⌋
    let sign : List Char := if n < 0 then ['-'] else []
    sign ++ natChars (n.natAbs / 100) ++ '.' :: pad2 (n.natAbs % 100)

/-- The 11 header labels. -/
def headerFields : List (List Char) :=
  ["Rank".toList, "Organization Name".toList, "Comprehensive Score".toList,
   "Potential Score".toList, "Funding Score".toList, "Operations Score".toList,
   "Brand Score".toList, "Headquarters Location".toList, "Industries".toList,
   "Description".toList, "Website".toList]

/-- The 11 fields of one exported row (`rankIdx` is `idx + 1`). -/
def exportRowFields (rankIdx : ℕ) (c : ScoredCompany) : List (List Char) :=
  [natChars rankIdx,
   quoteWrap (dquoteChars c.raw.organizationName.toList),
   toFixed2 c.scores.comprehensive,
   toFixed2 c.scores.potential,
   toFixed2 c.scores.funding,
   toFixed2 c.scores.operations,
   toFixed2 c.scores.brandTrend,
   quoteWrap (dquoteChars (orDefault c.raw.headquartersLocation "").toList),
   quoteWrap (dquoteChars (orDefault c.raw.industries "").toList),
   quoteWrap ((dquoteChars (orDefault c.raw.fullDescription (orDefault c.raw.description "")).toList).take 1000),
   (orDefault c.raw.orgNameUrl "").toList]

/-- The exported CSV text as a character list. -/
def exportL (cs : List ScoredCompany) : List Char :=
  List.intercalate ['\n']
    ((List.intercalate [','] headerFields) ::
      mapIdxFrom (fun i c => List.intercalate [','] (exportRowFields (i + 1) c)) 0 cs)

def exportCompaniesToCSV (cs : List ScoredCompany) : String :=
  String.mk (exportL cs)

/-! Derived definitions used to state and prove the claims. -/

/-- Lookup (`Map.prototype.get`). -/
def lookupA {κ σ : Type} [DecidableEq κ] (k : κ) : List (κ × σ) → Option σ
  | [] => none
  | (k', v) :: rest => if k' = k then some v else lookupA k rest

/-- Keys in iteration order. -/
def keysA {κ σ : Type} (m : List (κ × σ)) : List κ := m.map Prod.fst

/-- Fold a list of keyed update events over a map. -/
def applyEvents {κ σ : Type} [DecidableEq κ] (init : σ)
    (evs : List (κ × (σ → σ))) (m : List (κ × σ)) : List (κ × σ) :=
  evs.foldl (fun m' e => upsertA e.1 init e.2 m') m

/-- Apply the updates of the events keyed `k`, in order, to a start
value. -/
def chainApply {κ σ : Type} [DecidableEq κ] (k : κ)
    (evs : List (κ × (σ → σ))) (v : σ) : σ :=
  (evs.filter (fun e => e.1 = k)).foldl (fun acc e => e.2 acc) v

/-- The keyed update events of the trend aggregation, in processing
order. -/
def trendEvents (currentYear : ℤ) (scored : List ScoredCompany) :
    List (ℤ × (TCounts → TCounts)) :=
  scored.filterMap (fun c =>
    if 1990 < yearOfRecord c.raw ∧ yearOfRecord c.raw ≤ currentYear then
      some (yearOfRecord c.raw, bumpTCounts c.themes)
    else none)

/-- The keyed update events of the investor aggregation, in processing
order. -/
def invEvents (scored : List ScoredCompany) :
    List (String × (InvData → InvData)) :=
  scored.flatMap (fun c => (extractInvestors c.raw).map (fun n => (n, invUpdate c)))

/-- Fold the trend counter over a list of companies. -/
def foldBump (cs : List ScoredCompany) (v : TCounts) : TCounts :=
  cs.foldl (fun acc c => bumpTCounts c.themes acc) v

/-- Fold the investor accumulator over a list of companies. -/
def foldInv (cs : List ScoredCompany) (v : InvData) : InvData :=
  cs.foldl (fun acc c => invUpdate c acc) v

/-- The scored list built by `processData` before sorting. -/
def scoredOf (batch : List Raw) : List ScoredCompany :=
  mapIdxFrom (fun i c => scoreCompany (batchStatsOf (batch.map normalizeRecord)) i c) 0
    (batch.map normalizeRecord)

/-- Number of batch records with the given founding year. -/
def bucketTotal (y : ℤ) (batch : List Raw) : ℕ :=
  batch.countP (fun r => decide (yearOfRecord r = y))

/-- Number of batch records with the given founding year matching a
theme selector. -/
def bucketTheme (y : ℤ) (batch : List Raw) (sel : Themes → Bool) : ℕ :=
  batch.countP (fun r => decide (yearOfRecord r = y) && sel (themesOf r))

/-- Batch records crediting the named investor. -/
def invBucket (name : String) (batch : List Raw) : List Raw :=
  batch.filter (fun r => decide (name ∈ extractInvestors r))

/-- Per-theme tallies of an investor recomputed directly from the
batch. -/
def batchTallyOf (name : String) (batch : List Raw) : ThemeTally :=
  { AI := (invBucket name batch).countP (fun r => (themesOf r).ai)
    Climate := (invBucket name batch).countP (fun r => (themesOf r).climate)
    Fintech := (invBucket name batch).countP (fun r => (themesOf r).fintech)
    Healthcare := (invBucket name batch).countP (fun r => (themesOf r).healthcare)
    SaaS := (invBucket name batch).countP (fun r => (themesOf r).saas)
    Consumer := (invBucket name batch).countP (fun r => (themesOf r).consumer) }

/-- Tally of a theme name. -/
def tallyOfName (t : ThemeTally) (n : String) : ℕ :=
  if n = "AI" then t.AI
  else if n = "Climate" then t.Climate
  else if n = "Fintech" then t.Fintech
  else if n = "Healthcare" then t.Healthcare
  else if n = "SaaS" then t.SaaS
  else if n = "Consumer" then t.Consumer
  else 0

/-- Position of a theme name in the fixed category order
AI, Climate, Fintech, Healthcare, SaaS, Consumer. -/
def catIdx (n : String) : ℕ :=
  if n = "AI" then 0
  else if n = "Climate" then 1
  else if n = "Fintech" then 2
  else if n = "Healthcare" then 3
  else if n = "SaaS" then 4
  else if n = "Consumer" then 5
  else 6

/-- The claim's reading of the stage-score rules: first matching rule
wins. -/
def stageScoreFirstMatch (stage : List Char) : ℚ :=
  if containsL "series a".toList stage then 7/10
  else if containsL "series b".toList stage || containsL "series c".toList stage then 9/10
  else if containsL "ipo".toList stage || containsL "acquired".toList stage then 1/2
  else 3/10

/-- The corrected reading of the stage-score rules: the last matching
rule wins. -/
def stageScoreLastMatch (stage : List Char) : ℚ :=
  if containsL "ipo".toList stage || containsL "acquired".toList stage then 1/2
  else if containsL "series b".toList stage || containsL "series c".toList stage then 9/10
  else if containsL "series a".toList stage then 7/10
  else 3/10

/-- True on a finite nonnegative value, false on `NaN`. -/
def nonnegJs : JsNum → Bool
  | some q => decide (0 ≤ q)
  | none => false

/-- Well-formedness of a record for the score-range property: the four
numeric fields parse, article and round counts are nonnegative, and the
employee-range value is a nonnegative number. -/
def wellFormedB (r : Raw) : Bool :=
  ((normalizeRecord r).fundAmt).isSome &&
  nonnegJs ((normalizeRecord r).articles) &&
  ((normalizeRecord r).rank).isSome &&
  nonnegJs ((normalizeRecord r).rounds) &&
  nonnegJs (parseEmployeeCount r.numberOfEmployees)

/-- Rank and article fields parse to numbers. -/
def ranksParseB (r : Raw) : Bool :=
  ((normalizeRecord r).rank).isSome && ((normalizeRecord r).articles).isSome

/-- The spec's `normalize` on plain rationals. -/
def normalizeSpec (v mn mx : ℚ) : ℚ := if mx = mn then 0 else (v - mn) / (mx - mn)

/-- Parsed rank of a record (0 for `NaN`; used under a parse
hypothesis). -/
def rankOf (r : Raw) : ℚ := ((normalizeRecord r).rank).getD 0

/-- Parsed article count of a record (0 for `NaN`). -/
def articlesOf (r : Raw) : ℚ := ((normalizeRecord r).articles).getD 0

def listMax (l : List ℚ) (i : ℚ) : ℚ := l.foldr max i

def listMin (l : List ℚ) (i : ℚ) : ℚ := l.foldr min i

/-- Parsed funding amount of a record (0 for `NaN`). -/
def fundOf (r : Raw) : ℚ := ((normalizeRecord r).fundAmt).getD 0

/-- Parsed funding-round count of a record (0 for `NaN`). -/
def roundsOf (r : Raw) : ℚ := ((normalizeRecord r).rounds).getD 0

/-- The brand/trend formula as the code computes it, written in the
spec's style: batch extrema with the floor/ceiling fallbacks and the
keyword bonus added directly. -/
def amendedBrandTrendScore (batch : List Raw) (r : Raw) : ℚ :=
  let minRank := listMin (batch.map rankOf) 1
  let maxRank := listMax (batch.map rankOf) 100000
  let maxArticles := listMax (batch.map articlesOf) 1
  let keywordBonus : ℚ := if anyTheme (themesOf r) then 2/10 else 0
  100 * min 1 ((1/2) * (1 - normalizeSpec (rankOf r) minRank maxRank)
    + (3/10) * normalizeSpec (articlesOf r) 0 maxArticles + keywordBonus)

/-- The brand/trend formula exactly as the claim words it: batch minimum
rank as present in the batch, and `0.2 × keywordBonus` with
`keywordBonus = 0.2` when a theme flag is set. -/
def specBrandTrendScore (batch : List Raw) (r : Raw) : ℚ :=
  let minRank := match batch.map rankOf with | [] => 0 | x :: xs => listMin xs x
  let maxRank := match batch.map rankOf with | [] => 0 | x :: xs => listMax xs x
  let maxArticles := match batch.map articlesOf with | [] => 0 | x :: xs => listMax xs x
  let keywordBonus : ℚ := if anyTheme (themesOf r) then 2/10 else 0
  100 * min 1 ((1/2) * (1 - normalizeSpec (rankOf r) minRank maxRank)
    + (3/10) * normalizeSpec (articlesOf r) 0 maxArticles + (2/10) * keywordBonus)

/-- The description text exported in the Description column. -/
def descText (c : ScoredCompany) : List Char :=
  (orDefault c.raw.fullDescription (orDefault c.raw.description "")).toList

/-- One step of the field-safety scanner, on the state
`(inQuote, brokeCell)`. -/
def fsStep (s : Bool × Bool) (ch : Char) : Bool × Bool :=
  if ch = '"' then (!s.1, s.2)
  else if ch = ',' && !s.1 then (s.1, true)
  else s

/-- A field is safe when scanning it from outside quotes neither splits
the cell nor leaves an open quote. -/
def fieldSafe (l : List Char) : Bool :=
  let s := l.foldl fsStep (false, false)
  !s.1 && !s.2

def noNl (l : List Char) : Bool := l.all (fun c => c ≠ '\n')

/-- Conditions under which one exported row survives re-parsing: no
newline in any textual field, a website without commas, quotes or
newlines, and a description whose quote doubling is not cut by the
1000-character truncation. -/
def exportSafe (c : ScoredCompany) : Bool :=
  noNl c.raw.organizationName.toList &&
  noNl (orDefault c.raw.headquartersLocation "").toList &&
  noNl (orDefault c.raw.industries "").toList &&
  noNl (descText c) &&
  ((orDefault c.raw.orgNameUrl "").toList.all
    (fun ch => ch ≠ ',' && ch ≠ '"' && ch ≠ '\n')) &&
  ((descText c).all (fun ch => ch ≠ '"') ||
    decide ((dquoteChars (descText c)).length ≤ 1000))

/-- A concrete scored company used by concrete export scenarios (the
exporter accepts any company sequence). -/
def sampleCompany (raw : Raw) : ScoredCompany :=
  { raw := raw
    id := "comp-0"
    scores := { funding := some 0, operations := some 0, brandTrend := some 0,
                potential := some 0, comprehensive := some 0 }
    themes := { ai := false, climate := false, fintech := false,
                healthcare := false, saas := false, consumer := false } }

/-- A batch with two records sharing one organization name and one
investor. -/
def twoAcme : List Raw :=
  [{ organizationName := "Acme", top5Investors := some "Big Fund, Small Fund" },
   { organizationName := "Acme", leadInvestors := some "Big Fund" }]

/-- A record with a comma in the organization name, a quote in the
description and a plain website. -/
def rawAcmeInc : Raw :=
  { organizationName := "Acme, Inc", description := some "a \"b\"",
    orgNameUrl := some "http://x.com" }

/-- The "Big Fund" investor rollup produced from `twoAcme`. -/
def bigFundStat : InvestorStat :=
  { name := "Big Fund", count := 2, topThemes := [],
    portfolio := [{ name := "Acme", themes := [] }] }

/-- A batch with one shared investor and theme-bearing descriptions. -/
def invDemoBatch : List Raw :=
  [{ organizationName := "A", top5Investors := some "Fund X",
     description := some "fintech" },
   { organizationName := "B", top5Investors := some "Fund X",
     description := some "saas fintech" }]

/-- The "Fund X" investor rollup produced from `invDemoBatch`. -/
def fundXStat : InvestorStat :=
  { name := "Fund X", count := 2, topThemes := ["Fintech", "SaaS"],
    portfolio := [{ name := "A", themes := ["Fintech"] },
                  { name := "B", themes := ["Fintech", "SaaS"] }] }

/-! Lemmas about the stable insertion sort. -/

theorem perm_insertBy {α : Type} (le : α → α → Bool) (x : α) (l : List α) :
    List.Perm (insertBy le x l) (x :: l) := by
  induction l with
  | nil => simp [insertBy]
  | cons y ys ih =>
    simp only [insertBy]
    split
    · exact List.Perm.refl _
    · exact ((ih.cons y).trans (List.Perm.swap x y ys))

theorem perm_insSortBy {α : Type} (le : α → α → Bool) (l : List α) :
    List.Perm (insSortBy le l) l := by
  induction l with
  | nil => simp [insSortBy]
  | cons x xs ih =>
    exact (perm_insertBy le x (insSortBy le xs)).trans (ih.cons x)

theorem mem_insSortBy {α : Type} {le : α → α → Bool} {l : List α} {a : α} :
    a ∈ insSortBy le l ↔ a ∈ l :=
  (perm_insSortBy le l).mem_iff

theorem length_insSortBy {α : Type} (le : α → α → Bool) (l : List α) :
    (insSortBy le l).length = l.length :=
  (perm_insSortBy le l).length_eq

/-- Stability of insertion into a stably sorted list: the output is
pairwise ordered by `le`, and on `le`-ties it respects the original
relation `R` (the element being inserted came before every listed
element). -/
theorem pairwise_insertBy_stable {α : Type} {le : α → α → Bool} {R : α → α → Prop}
    (htot : ∀ a b, le a b = true ∨ le b a = true)
    (htrans : ∀ a b c, le a b = true → le b c = true → le a c = true)
    (x : α) (l : List α)
    (hl : l.Pairwise (fun a b => le a b = true ∧ (le b a = true → R a b)))
    (hx : ∀ y ∈ l, R x y) :
    (insertBy le x l).Pairwise (fun a b => le a b = true ∧ (le b a = true → R a b)) := by
  induction l with
  | nil => simp [insertBy]
  | cons y ys ih =>
    rcases List.pairwise_cons.mp hl with ⟨hy, hys⟩
    simp only [insertBy]
    split
    · rename_i hxy
      refine List.pairwise_cons.mpr ⟨?_, hl⟩
      intro z hz
      rcases List.mem_cons.mp hz with rfl | hz2
      · exact ⟨hxy, fun _ => hx z (by simp)⟩
      · rcases hy z hz2 with ⟨hyz, _⟩
        exact ⟨htrans x y z hxy hyz, fun _ => hx z (List.mem_cons_of_mem y hz2)⟩
    · rename_i hxy
      have hyx : le y x = true := by
        rcases htot x y with h | h
        · exact absurd h hxy
        · exact h
      refine List.pairwise_cons.mpr ⟨?_, ih hys (fun z hz => hx z (by simp [hz]))⟩
      intro z hz
      have hz' : z = x ∨ z ∈ ys := by
        have hp := (perm_insertBy le x ys).mem_iff (a := z)
        simpa using hp.mp hz
      rcases hz' with rfl | hz'
      · exact ⟨hyx, fun h => absurd h hxy⟩
      · exact hy z hz'

/-- Stable sorting of a `Pairwise R` list yields a list pairwise ordered
by `le` where ties keep the `R` order. -/
theorem pairwise_insSortBy_stable {α : Type} {le : α → α → Bool} {R : α → α → Prop}
    (htot : ∀ a b, le a b = true ∨ le b a = true)
    (htrans : ∀ a b c, le a b = true → le b c = true → le a c = true)
    (l : List α) (hl : l.Pairwise R) :
    (insSortBy le l).Pairwise (fun a b => le a b = true ∧ (le b a = true → R a b)) := by
  induction l with
  | nil => simp [insSortBy]
  | cons x xs ih =>
    rcases List.pairwise_cons.mp hl with ⟨hx, hxs⟩
    exact pairwise_insertBy_stable htot htrans x (insSortBy le xs) (ih hxs)
      (fun y hy => hx y (mem_insSortBy.mp hy))

/-! Lemmas about the association-list `Map` model. -/

theorem lookupA_upsertA_self {κ σ : Type} [DecidableEq κ] (k : κ) (init : σ)
    (upd : σ → σ) (m : List (κ × σ)) :
    lookupA k (upsertA k init upd m) = some (upd ((lookupA k m).getD init)) := by
  induction m with
  | nil => simp [upsertA, lookupA]
  | cons p rest ih =>
    obtain ⟨k', v⟩ := p
    by_cases h : k' = k
    · subst h
      simp [upsertA, lookupA]
    · simp [upsertA, lookupA, h, ih]

theorem lookupA_upsertA_ne {κ σ : Type} [DecidableEq κ] {k k' : κ} (init : σ)
    (upd : σ → σ) (m : List (κ × σ)) (hne : k' ≠ k) :
    lookupA k' (upsertA k init upd m) = lookupA k' m := by
  have hne' : ¬ k = k' := fun hh => hne hh.symm
  induction m with
  | nil => simp [upsertA, lookupA, hne']
  | cons p rest ih =>
    obtain ⟨k0, v⟩ := p
    by_cases h : k0 = k
    · subst h
      simp [upsertA, lookupA, hne']
    · simp [upsertA, lookupA, h, ih]

theorem keysA_upsertA {κ σ : Type} [DecidableEq κ] (k : κ) (init : σ)
    (upd : σ → σ) (m : List (κ × σ)) :
    keysA (upsertA k init upd m) =
      if k ∈ keysA m then keysA m else keysA m ++ [k] := by
  induction m with
  | nil => simp [upsertA, keysA]
  | cons p rest ih =>
    obtain ⟨k0, v⟩ := p
    simp only [keysA, List.map_cons] at ih ⊢
    by_cases h : k0 = k
    · subst h
      simp [upsertA]
    · have hne' : ¬ k = k0 := fun hh => h hh.symm
      simp only [upsertA, if_neg h, List.map_cons, List.mem_cons, hne', false_or]
      by_cases hk : k ∈ rest.map Prod.fst
      · simp only [ih, if_pos hk]
      · simp only [ih, if_neg hk, List.cons_append]

theorem nodup_keysA_upsertA {κ σ : Type} [DecidableEq κ] (k : κ) (init : σ)
    (upd : σ → σ) (m : List (κ × σ)) (hm : (keysA m).Nodup) :
    (keysA (upsertA k init upd m)).Nodup := by
  rw [keysA_upsertA]
  split
  · exact hm
  · rename_i hk
    simp [List.nodup_append, hm, hk]

theorem mem_keysA_iff_lookupA {κ σ : Type} [DecidableEq κ] {k : κ} {m : List (κ × σ)} :
    k ∈ keysA m ↔ lookupA k m ≠ none := by
  induction m with
  | nil => simp [keysA, lookupA]
  | cons p rest ih =>
    obtain ⟨k0, v⟩ := p
    by_cases h : k0 = k
    · subst h
      simp [keysA, lookupA]
    · have hne' : ¬ k = k0 := fun hh => h hh.symm
      simp only [keysA, List.map_cons, List.mem_cons, lookupA, if_neg h, hne', false_or]
      exact ih

theorem mem_of_lookupA {κ σ : Type} [DecidableEq κ] {k : κ} {v : σ} {m : List (κ × σ)}
    (h : lookupA k m = some v) : (k, v) ∈ m := by
  induction m with
  | nil => simp [lookupA] at h
  | cons p rest ih =>
    obtain ⟨k0, v0⟩ := p
    by_cases hk : k0 = k
    · subst hk
      simp only [lookupA, if_pos rfl] at h
      obtain rfl := Option.some_injective _ h
      simp
    · simp only [lookupA, if_neg hk] at h
      exact List.mem_cons_of_mem _ (ih h)

theorem lookupA_of_mem_nodup {κ σ : Type} [DecidableEq κ] {k : κ} {v : σ}
    {m : List (κ × σ)} (hm : (keysA m).Nodup) (h : (k, v) ∈ m) :
    lookupA k m = some v := by
  induction m with
  | nil => simp at h
  | cons p rest ih =>
    obtain ⟨k0, v0⟩ := p
    rcases List.mem_cons.mp h with heq | hmem
    · simp only [Prod.mk.injEq] at heq
      obtain ⟨rfl, rfl⟩ := heq
      simp [lookupA]
    · simp only [keysA, List.map_cons, List.nodup_cons] at hm
      have hk : k0 ≠ k := by
        rintro rfl
        exact hm.1 (by simpa [keysA] using List.mem_map_of_mem Prod.fst hmem)
      simp only [lookupA, if_neg hk]
      exact ih (by simpa [keysA] using hm.2) hmem

/-! Characterization of a fold of keyed updates over the map. -/

theorem applyEvents_nil {κ σ : Type} [DecidableEq κ] (init : σ) (m : List (κ × σ)) :
    applyEvents init ([] : List (κ × (σ → σ))) m = m := rfl

theorem applyEvents_cons {κ σ : Type} [DecidableEq κ] (init : σ)
    (e : κ × (σ → σ)) (evs : List (κ × (σ → σ))) (m : List (κ × σ)) :
    applyEvents init (e :: evs) m = applyEvents init evs (upsertA e.1 init e.2 m) := rfl

theorem lookupA_applyEvents {κ σ : Type} [DecidableEq κ] (init : σ)
    (evs : List (κ × (σ → σ))) :
    ∀ (m : List (κ × σ)) (k : κ),
      lookupA k (applyEvents init evs m) =
        match lookupA k m with
        | some v => some (chainApply k evs v)
        | none =>
          if k ∈ evs.map Prod.fst then some (chainApply k evs init) else none := by
  induction evs with
  | nil =>
    intro m k
    simp only [applyEvents_nil, chainApply, List.filter_nil, List.foldl_nil,
      List.map_nil, List.not_mem_nil, if_false]
    cases lookupA k m <;> rfl
  | cons e rest ih =>
    intro m k
    obtain ⟨ke, fe⟩ := e
    rw [applyEvents_cons, ih]
    by_cases hk : ke = k
    · subst hk
      rw [lookupA_upsertA_self]
      cases hm : lookupA ke m <;>
        simp [chainApply, List.filter_cons, hm]
    · rw [lookupA_upsertA_ne _ _ _ (fun hh => hk hh.symm)]
      have hfil : (((ke, fe) :: rest).filter (fun e => e.1 = k)) =
          rest.filter (fun e => e.1 = k) := by
        simp [List.filter_cons, hk]
      have hkk : ¬ k = ke := fun hh => hk hh.symm
      by_cases hmem : k ∈ List.map Prod.fst rest <;>
        cases hm : lookupA k m <;>
          simp [chainApply, hfil, hk, List.mem_cons, hkk, hmem]

theorem keysA_applyEvents_mem {κ σ : Type} [DecidableEq κ] (init : σ)
    (evs : List (κ × (σ → σ))) :
    ∀ (m : List (κ × σ)) (k : κ),
      k ∈ keysA (applyEvents init evs m) ↔ k ∈ keysA m ∨ k ∈ evs.map Prod.fst := by
  induction evs with
  | nil => simp [applyEvents_nil]
  | cons e rest ih =>
    intro m k
    rw [applyEvents_cons, ih]
    rw [keysA_upsertA]
    by_cases h : e.1 ∈ keysA m
    · simp only [if_pos h, List.map_cons, List.mem_cons]
      constructor
      · rintro (hm1 | hr)
        · exact Or.inl hm1
        · exact Or.inr (Or.inr hr)
      · rintro (hm1 | hke | hr)
        · exact Or.inl hm1
        · exact Or.inl (by rw [hke]; exact h)
        · exact Or.inr hr
    · simp only [if_neg h, List.map_cons, List.mem_cons, List.mem_append,
        List.mem_singleton, List.not_mem_nil, or_false]
      tauto

theorem nodup_keysA_applyEvents {κ σ : Type} [DecidableEq κ] (init : σ)
    (evs : List (κ × (σ → σ))) :
    ∀ (m : List (κ × σ)), (keysA m).Nodup → (keysA (applyEvents init evs m)).Nodup := by
  induction evs with
  | nil =>
    intro m hm
    simpa [applyEvents_nil] using hm
  | cons e rest ih =>
    intro m hm
    rw [applyEvents_cons]
    exact ih _ (nodup_keysA_upsertA _ _ _ _ hm)

/-! Evaluation of the default strings fed to the numeric parsers. -/

theorem parse_def_zero_float : jsParseFloatL ['0'] = some 0 := by
  with_unfolding_all rfl

theorem parse_def_zero_int : jsParseIntL ['0'] = some 0 := by
  with_unfolding_all rfl

theorem parse_def_rank : jsParseIntL (removeCommas ['1', '0', '0', '0', '0', '0']) = some 100000 := by
  with_unfolding_all rfl

theorem parse_def_one : jsParseIntL ['1'] = some 1 := by
  with_unfolding_all rfl

/-! Claim C2: the stage-score lookup. -/

/-- Claim C2 as stated is false: the source evaluates the three stage
rules as independent reassignments, so the LAST matching rule wins.  For
the label "series a ipo" (which contains both "series a" and "ipo") the
claim demands 0.7, but the code yields 0.5; on a record whose funding
stage is "Series A IPO" the resulting potential score is the one derived
from a 0.5 stage score. -/
theorem claim_c2_counterexample :
    stageScoreOf "series a ipo".toList = 1/2 ∧
    stageScoreFirstMatch "series a ipo".toList = 7/10 ∧
    ¬ stageScoreOf "series a ipo".toList = 7/10 ∧
    (processData 2026 [{ lastFundingType := some "Series A IPO" }]).companies.map
      (fun c => c.scores.potential) = [some 29] := by
  with_unfolding_all decide

/-- Claim C2 (amended): the stage score used in the potential score is a
case-insensitive substring lookup on the funding-stage label where the
rules are evaluated in the stated order but the LAST matching rule wins:
"ipo"/"acquired" override "series b"/"series c", which override
"series a"; with no match the score is 0.3. -/
theorem claim_c2_amended : ∀ label : List Char,
    stageScoreOf (lowerL label) = stageScoreLastMatch (lowerL label) := by
  intro label
  by_cases hA : containsL "series a".toList (lowerL label) = true <;>
  by_cases hB : containsL "series b".toList (lowerL label) = true <;>
  by_cases hC : containsL "series c".toList (lowerL label) = true <;>
  by_cases hI : containsL "ipo".toList (lowerL label) = true <;>
  by_cases hQ : containsL "acquired".toList (lowerL label) = true <;>
    simp [stageScoreOf, stageScoreLastMatch, hA, hB, hC, hI, hQ]

/-! Claim C3: defaulting of unparseable numeric fields. -/

/-- Claim C3 as stated is false: a present but unparseable numeric field
is NOT replaced by the documented default.  The funding amount "abc"
parses to NaN, which reaches the funding score of the produced company
(the whole batch normalization is poisoned, since the batch maximum
becomes NaN). -/
theorem claim_c3_counterexample :
    jsParseFloatL "abc".toList = none ∧
    (normalizeRecord { totalFundingUsd := some "abc" }).fundAmt = none ∧
    ¬ (normalizeRecord { totalFundingUsd := some "abc" }).fundAmt = some 0 ∧
    (processData 2026 [{ totalFundingUsd := some "abc" }]).companies.map
      (fun c => c.scores.funding) = [none] := by
  with_unfolding_all decide

/-- Claim C3 (amended): the documented defaults (0 for amount and
articles, 100000 for rank, 1 for rounds) are substituted only when the
field is absent or the empty string; a present non-empty unparseable
value instead parses to NaN and propagates into the scores. -/
theorem claim_c3_amended : ∀ r : Raw,
    ((r.totalFundingUsd = none ∨ r.totalFundingUsd = some "") →
      (normalizeRecord r).fundAmt = some 0) ∧
    ((r.numberOfArticles = none ∨ r.numberOfArticles = some "") →
      (normalizeRecord r).articles = some 0) ∧
    ((r.cbRank = none ∨ r.cbRank = some "") →
      (normalizeRecord r).rank = some 100000) ∧
    ((r.numberOfFundingRounds = none ∨ r.numberOfFundingRounds = some "") →
      (normalizeRecord r).rounds = some 1) := by
  intro r
  refine ⟨?_, ?_, ?_, ?_⟩ <;> rintro (h | h) <;>
    simp [normalizeRecord, orDefault, h, parse_def_zero_float, parse_def_zero_int,
      parse_def_rank, parse_def_one]

/-- Witness for the amended claim C3 at concrete records. -/
theorem claim_c3_amended_witness :
    (normalizeRecord {}).fundAmt = some 0 ∧
    (normalizeRecord { cbRank := some "" }).rank = some 100000 :=
  ⟨(claim_c3_amended {}).1 (Or.inl rfl),
   (claim_c3_amended { cbRank := some "" }).2.2.1 (Or.inr rfl)⟩

/-! Claim C5: quoting in the exporter. -/

/-- Claim C5 as stated is false: the website column of a row is emitted
verbatim, not wrapped in quotes.  For a company with website
"http://x.com" the 11th field is the bare URL, which cannot be
decomposed as a quote-wrapped quote-doubled text. -/
theorem claim_c5_counterexample :
    (exportRowFields 1 (sampleCompany
      { organizationName := "Acme", orgNameUrl := some "http://x.com" })).getD 10 []
      = "http://x.com".toList ∧
    ¬ ∃ s, ("http://x.com".toList : List Char) = quoteWrap (dquoteChars s) := by
  constructor
  · with_unfolding_all rfl
  · rintro ⟨s, hs⟩
    have hh : (("http://x.com".toList : List Char)).head? =
        (quoteWrap (dquoteChars s)).head? := by rw [hs]
    rw [show ("http://x.com".toList : List Char) = 'h' :: "ttp://x.com".toList from rfl] at hh
    rw [quoteWrap] at hh
    simp only [List.head?_cons, Option.some.injEq] at hh
    exact absurd hh (by decide)

/-- Claim C5 (amended): the organization name, location and industries
fields are wrapped in quotes with internal quotes doubled; the
description field is as well whenever its quote-doubled text fits the
1000-character truncation (otherwise a truncated prefix of the doubled
text is wrapped); the website field is emitted verbatim, unquoted. -/
theorem claim_c5_amended : ∀ (idx : ℕ) (c : ScoredCompany),
    (∃ s, (exportRowFields idx c).getD 1 [] = quoteWrap (dquoteChars s) ∧
      s = c.raw.organizationName.toList) ∧
    (∃ s, (exportRowFields idx c).getD 7 [] = quoteWrap (dquoteChars s) ∧
      s = (orDefault c.raw.headquartersLocation "").toList) ∧
    (∃ s, (exportRowFields idx c).getD 8 [] = quoteWrap (dquoteChars s) ∧
      s = (orDefault c.raw.industries "").toList) ∧
    ((dquoteChars (descText c)).length ≤ 1000 →
      ∃ s, (exportRowFields idx c).getD 9 [] = quoteWrap (dquoteChars s) ∧
        s = descText c) ∧
    (exportRowFields idx c).getD 10 [] = (orDefault c.raw.orgNameUrl "").toList := by
  intro idx c
  refine ⟨⟨_, rfl, rfl⟩, ⟨_, rfl, rfl⟩, ⟨_, rfl, rfl⟩, ?_, rfl⟩
  intro h
  refine ⟨descText c, ?_, rfl⟩
  show quoteWrap ((dquoteChars (descText c)).take 1000) = quoteWrap (dquoteChars (descText c))
  rw [List.take_of_length_le h]

/-- Witness for the amended claim C5 at a concrete company. -/
theorem claim_c5_amended_witness :
    (dquoteChars (descText (sampleCompany { description := some "a \"b\"" }))).length ≤ 1000 ∧
    ∃ s, (exportRowFields 1 (sampleCompany { description := some "a \"b\"" })).getD 9 []
        = quoteWrap (dquoteChars s) ∧
      s = descText (sampleCompany { description := some "a \"b\"" }) :=
  ⟨by with_unfolding_all decide,
   (claim_c5_amended 1 (sampleCompany { description := some "a \"b\"" })).2.2.2.1
     (by with_unfolding_all decide)⟩

/-! Counterexamples to claims C1, C4 and C8 as stated. -/

/-- Claim C1 as stated is false: a record whose funding-rounds field is
"-3" parses to a negative round count, and the produced funding score is
-90, outside [0, 100]. -/
theorem claim_c1_counterexample :
    (processData 2026 [{ numberOfFundingRounds := some "-3" }]).companies.map
      (fun c => c.scores.funding) = [some (-90)] ∧
    ¬ ((0 : ℚ) ≤ -90) := by
  with_unfolding_all decide

/-- Claim C4 as stated is false on two counts.  With a single record of
rank 7 and 3 articles the code uses the padded batch minimum rank
min(ranks, 1) = 1, producing 80 − 100/33333, while the claim's formula
(batch minimum rank as present, 7) yields exactly 80.  With a single
themed record of rank 1 the code adds the keyword bonus 0.2 itself,
producing 70, while the claim's `0.2 × keywordBonus` term adds only
0.04, yielding 54. -/
theorem claim_c4_counterexample :
    (processData 2026 [{ cbRank := some "7", numberOfArticles := some "3" }]).companies.map
      (fun c => c.scores.brandTrend) = [some (2666540/33333)] ∧
    specBrandTrendScore [{ cbRank := some "7", numberOfArticles := some "3" }]
      { cbRank := some "7", numberOfArticles := some "3" } = 80 ∧
    ¬ ((2666540 : ℚ)/33333 = 80) ∧
    (processData 2026 [{ cbRank := some "1", description := some "fintech" }]).companies.map
      (fun c => c.scores.brandTrend) = [some 70] ∧
    specBrandTrendScore [{ cbRank := some "1", description := some "fintech" }]
      { cbRank := some "1", description := some "fintech" } = 54 ∧
    ¬ ((70 : ℚ) = 54) := by
  refine ⟨?_, ?_, ?_, ?_, ?_, ?_⟩ <;> with_unfolding_all first
    | rfl
    | decide

/-- Claim C8 as stated is false: a website containing a comma splits its
row into 12 parsed fields, so the parser silently discards the row and
the round-trip loses it. -/
theorem claim_c8_counterexample :
    (parseCSV (exportCompaniesToCSV
      [sampleCompany { organizationName := "Acme", orgNameUrl := some "a,b" }])).length = 0 ∧
    [sampleCompany { organizationName := "Acme", orgNameUrl := some "a,b" }].length = 1 ∧
    ¬ ((0 : ℕ) = 1) := by
  refine ⟨?_, rfl, by decide⟩
  with_unfolding_all rfl

/-! Claim C9: the parser's row-discard policy. -/

/-- A fold that conditionally appends is a filter-and-map. -/
theorem foldl_if_append {α β : Type} (p : α → Prop) [DecidablePred p] (f : α → β) :
    ∀ (l : List α) (acc : List β),
      l.foldl (fun d x => if p x then d ++ [f x] else d) acc
        = acc ++ (l.filter (fun x => decide (p x))).map f := by
  intro l
  induction l with
  | nil => intro acc; simp
  | cons x xs ih =>
    intro acc
    by_cases h : p x <;>
      simp [List.filter_cons, h, ih]

/-- Claim C9: the parser is total, keeps exactly the non-blank data
lines whose scanned field count equals the header field count (in input
order, one record per kept line), and silently discards every other
line. -/
theorem claim_c9 : ∀ text : String,
    parseCSV text =
      (let lines := (List.splitOn '\n' text.toList).filter (fun l => trimL l ≠ [])
       if lines.length < 2 then []
       else
         ((lines.drop 1).filter (fun line =>
             (scanRowCells line).length = (List.splitOn ',' (lines.headD [])).length)).map
           (fun line =>
             mkRecordObj
               ((List.splitOn ',' (lines.headD [])).map (fun h => String.mk (cleanCell h)))
               ((scanRowCells line).map String.mk))) := by
  intro text
  simp only [parseCSV, parseCSVL]
  split
  · rfl
  · rw [foldl_if_append
      (fun line => ((scanRowCells line).map String.mk).length
        = ((List.splitOn ','
            (((List.splitOn '\n' text.toList).filter (fun l => trimL l ≠ [])).headD [])).map
          (fun h => String.mk (cleanCell h))).length)]
    simp only [List.nil_append]
    have hfil :
        (((List.splitOn '\n' text.toList).filter (fun l => trimL l ≠ [])).drop 1).filter
          (fun line =>
            decide (((scanRowCells line).map String.mk).length
              = ((List.splitOn ','
                  (((List.splitOn '\n' text.toList).filter (fun l => trimL l ≠ [])).headD [])).map
                (fun h => String.mk (cleanCell h))).length))
        = (((List.splitOn '\n' text.toList).filter (fun l => trimL l ≠ [])).drop 1).filter
          (fun line =>
            decide ((scanRowCells line).length
              = (List.splitOn ','
                  (((List.splitOn '\n' text.toList).filter (fun l => trimL l ≠ [])).headD [])).length)) := by
      apply List.filter_congr
      intro line _
      simp [List.length_map]
    rw [hfil]

/-! Claim C10: portfolio size never exceeds the deal count. -/

theorem length_upsertA_le {κ σ : Type} [DecidableEq κ] (k : κ) (init : σ)
    (upd : σ → σ) (m : List (κ × σ)) :
    (upsertA k init upd m).length ≤ m.length + 1 := by
  induction m with
  | nil => simp [upsertA]
  | cons p rest ih =>
    obtain ⟨k0, v⟩ := p
    by_cases h : k0 = k <;> simp [upsertA, h]
    omega

/-- Every value in the map satisfies a predicate preserved by an upsert. -/
theorem upsertA_values_pred {κ σ : Type} [DecidableEq κ] (P : σ → Prop) (k : κ)
    (init : σ) (upd : σ → σ) (hup : ∀ v, P v → P (upd v)) (hinit : P (upd init)) :
    ∀ m : List (κ × σ), (∀ p ∈ m, P p.2) → ∀ p ∈ upsertA k init upd m, P p.2 := by
  intro m
  induction m with
  | nil =>
    intro _ p hp
    simp only [upsertA, List.mem_singleton] at hp
    subst hp
    exact hinit
  | cons q rest ih =>
    intro hm p hp
    obtain ⟨k0, v⟩ := q
    by_cases h : k0 = k
    · subst h
      simp only [upsertA, if_pos rfl] at hp
      rcases List.mem_cons.mp hp with rfl | hp2
      · exact hup v (hm (k0, v) (by simp))
      · exact hm p (List.mem_cons_of_mem _ hp2)
    · simp only [upsertA, if_neg h] at hp
      rcases List.mem_cons.mp hp with rfl | hp2
      · exact hm (k0, v) (by simp)
      · exact ih (fun q hq => hm q (List.mem_cons_of_mem _ hq)) p hp2

/-- The portfolio/count invariant of the investor accumulator. -/
def invDataOk (v : InvData) : Prop := v.portfolio.length ≤ v.count

theorem invUpdate_ok (c : ScoredCompany) : ∀ v, invDataOk v → invDataOk (invUpdate c v) := by
  intro v hv
  unfold invDataOk at hv ⊢
  simp only [invUpdate, mapSet]
  have := length_upsertA_le c.raw.organizationName (activeThemes c.themes)
    (fun _ => activeThemes c.themes) v.portfolio
  omega

theorem investorStep_values_ok (c : ScoredCompany) :
    ∀ m : List (String × InvData), (∀ p ∈ m, invDataOk p.2) →
      ∀ p ∈ investorStep m c, invDataOk p.2 := by
  intro m hm
  unfold investorStep
  generalize extractInvestors c.raw = names
  induction names generalizing m with
  | nil => exact hm
  | cons n rest ih =>
    intro p hp
    simp only [List.foldl_cons] at hp
    refine ih (upsertA n {} (invUpdate c) m) ?_ p hp
    exact upsertA_values_pred invDataOk n {} (invUpdate c) (invUpdate_ok c)
      (invUpdate_ok c {} (by simp [invDataOk])) m hm

theorem investor_fold_values_ok (scored : List ScoredCompany) :
    ∀ m : List (String × InvData), (∀ p ∈ m, invDataOk p.2) →
      ∀ p ∈ scored.foldl investorStep m, invDataOk p.2 := by
  induction scored with
  | nil => intro m hm; exact hm
  | cons c rest ih =>
    intro m hm
    simp only [List.foldl_cons]
    exact ih (investorStep m c) (investorStep_values_ok c m hm)

/-- Claim C10: for every produced InvestorStat, the portfolio length is
at most the deal count — the count increments once per contributing
company record while the portfolio collapses records sharing an
organization name. -/
theorem claim_c10 : ∀ (currentYear : ℤ) (batch : List Raw),
    ∀ s ∈ (processData currentYear batch).investors,
      s.portfolio.length ≤ s.count := by
  intro cur batch s hs
  unfold processData at hs
  simp only at hs
  have hs1 := List.mem_of_mem_take hs
  have hs2 := mem_insSortBy.mp hs1
  rcases List.mem_map.mp hs2 with ⟨p, hpmem, rfl⟩
  have hok : invDataOk p.2 :=
    investor_fold_values_ok _ [] (by simp) p hpmem
  unfold invDataOk at hok
  simpa [mkInvestorStat] using hok

/-- Witness for claim C10: two records named "Acme" share the investor
"Big Fund", whose count is 2 while its portfolio has the single
collapsed entry. -/
theorem claim_c10_witness :
    bigFundStat ∈ (processData 2026 twoAcme).investors ∧
    bigFundStat.portfolio.length ≤ bigFundStat.count :=
  ⟨by with_unfolding_all decide,
   claim_c10 2026 twoAcme bigFundStat (by with_unfolding_all decide)⟩

/-! Batch extrema: the `Math.max(...list, pad)` folds on parsed
batches. -/

theorem le_listMax (l : List ℚ) (i : ℚ) : i ≤ listMax l i := by
  induction l with
  | nil => exact le_refl i
  | cons x xs ih => exact ih.trans (le_max_right x (listMax xs i))

theorem mem_le_listMax (l : List ℚ) (i : ℚ) : ∀ q ∈ l, q ≤ listMax l i := by
  induction l with
  | nil => intro q hq; simp at hq
  | cons x xs ih =>
    intro q hq
    rcases List.mem_cons.mp hq with rfl | hq2
    · exact le_max_left q (listMax xs i)
    · exact (ih q hq2).trans (le_max_right x (listMax xs i))

theorem listMin_le (l : List ℚ) (i : ℚ) : listMin l i ≤ i := by
  induction l with
  | nil => exact le_refl i
  | cons x xs ih => exact (min_le_right x (listMin xs i)).trans ih

theorem listMin_le_mem (l : List ℚ) (i : ℚ) : ∀ q ∈ l, listMin l i ≤ q := by
  induction l with
  | nil => intro q hq; simp at hq
  | cons x xs ih =>
    intro q hq
    rcases List.mem_cons.mp hq with rfl | hq2
    · exact min_le_left q (listMin xs i)
    · exact (min_le_right x (listMin xs i)).trans (ih q hq2)

theorem jsMaxList_eq_listMax (l : List JsNum) (i : ℚ) (h : ∀ x ∈ l, x ≠ none) :
    jsMaxList l (some i) = some (listMax (l.map (fun x => x.getD 0)) i) := by
  induction l with
  | nil => rfl
  | cons x xs ih =>
    rcases x with _ | a
    · exact absurd rfl (h none (by simp))
    · have := ih (fun y hy => h y (List.mem_cons_of_mem _ hy))
      simp only [jsMaxList, List.foldr_cons] at this ⊢
      rw [this]
      simp [jsMax, listMax, List.map_cons]

theorem jsMinList_eq_listMin (l : List JsNum) (i : ℚ) (h : ∀ x ∈ l, x ≠ none) :
    jsMinList l (some i) = some (listMin (l.map (fun x => x.getD 0)) i) := by
  induction l with
  | nil => rfl
  | cons x xs ih =>
    rcases x with _ | a
    · exact absurd rfl (h none (by simp))
    · have := ih (fun y hy => h y (List.mem_cons_of_mem _ hy))
      simp only [jsMinList, List.foldr_cons] at this ⊢
      rw [this]
      simp [jsMin, listMin, List.map_cons]

theorem jsNormalize_some {v mn mx : ℚ} (h : mn ≠ mx) :
    jsNormalize (some v) (some mn) (some mx) = some ((v - mn) / (mx - mn)) := by
  have h1 : ¬ mx = mn := fun hh => h hh.symm
  have h2 : mx - mn ≠ 0 := sub_ne_zero_of_ne h1
  simp [jsNormalize, jsEqB, jsDiv, jsSub, jsBin, h1, h2]

theorem normalize_bounds {v mn mx : ℚ} (h1 : mn ≤ v) (h2 : v ≤ mx) (h3 : mn < mx) :
    0 ≤ (v - mn) / (mx - mn) ∧ (v - mn) / (mx - mn) ≤ 1 := by
  have hd : 0 < mx - mn := by linarith
  constructor
  · exact div_nonneg (by linarith) hd.le
  · rw [div_le_one hd]
    linarith

theorem nonnegJs_some {x : JsNum} (h : nonnegJs x = true) :
    ∃ q : ℚ, x = some q ∧ 0 ≤ q := by
  cases x with
  | none => simp [nonnegJs] at h
  | some q => exact ⟨q, rfl, by simpa [nonnegJs] using h⟩

theorem mem_mapIdxFrom {α β : Type} (f : ℕ → α → β) :
    ∀ (i : ℕ) (l : List α) (y : β), y ∈ mapIdxFrom f i l → ∃ j x, x ∈ l ∧ y = f j x := by
  intro i l
  induction l generalizing i with
  | nil => intro y hy; simp [mapIdxFrom] at hy
  | cons a as ih =>
    intro y hy
    rcases List.mem_cons.mp hy with rfl | hy2
    · exact ⟨i, a, by simp, rfl⟩
    · rcases ih (i + 1) y hy2 with ⟨j, x, hx, hxy⟩
      exact ⟨j, x, List.mem_cons_of_mem _ hx, hxy⟩

/-! The batch statistics over a batch whose relevant fields parse. -/

theorem maxFund_eq (batch : List Raw)
    (h : ∀ r ∈ batch, ((normalizeRecord r).fundAmt).isSome = true) :
    (batchStatsOf (batch.map normalizeRecord)).maxFund
      = some (listMax (batch.map fundOf) 1) := by
  have h0 : (batchStatsOf (batch.map normalizeRecord)).maxFund
      = jsMaxList (batch.map (fun r => (normalizeRecord r).fundAmt)) (some 1) := by
    rw [show (batchStatsOf (batch.map normalizeRecord)).maxFund
      = jsMaxList ((batch.map normalizeRecord).map (fun r => r.fundAmt)) (some 1) from rfl]
    rw [List.map_map]
    rfl
  rw [h0, jsMaxList_eq_listMax]
  · rw [List.map_map]
    rfl
  · intro x hx
    rcases List.mem_map.mp hx with ⟨r, hr, rfl⟩
    exact Option.isSome_iff_ne_none.mp (h r hr)

theorem minFund_eq (batch : List Raw)
    (h : ∀ r ∈ batch, ((normalizeRecord r).fundAmt).isSome = true) :
    (batchStatsOf (batch.map normalizeRecord)).minFund
      = some (listMin (batch.map fundOf) 0) := by
  have h0 : (batchStatsOf (batch.map normalizeRecord)).minFund
      = jsMinList (batch.map (fun r => (normalizeRecord r).fundAmt)) (some 0) := by
    rw [show (batchStatsOf (batch.map normalizeRecord)).minFund
      = jsMinList ((batch.map normalizeRecord).map (fun r => r.fundAmt)) (some 0) from rfl]
    rw [List.map_map]
    rfl
  rw [h0, jsMinList_eq_listMin]
  · rw [List.map_map]
    rfl
  · intro x hx
    rcases List.mem_map.mp hx with ⟨r, hr, rfl⟩
    exact Option.isSome_iff_ne_none.mp (h r hr)

theorem maxArticles_eq (batch : List Raw)
    (h : ∀ r ∈ batch, ((normalizeRecord r).articles).isSome = true) :
    (batchStatsOf (batch.map normalizeRecord)).maxArticles
      = some (listMax (batch.map articlesOf) 1) := by
  have h0 : (batchStatsOf (batch.map normalizeRecord)).maxArticles
      = jsMaxList (batch.map (fun r => (normalizeRecord r).articles)) (some 1) := by
    rw [show (batchStatsOf (batch.map normalizeRecord)).maxArticles
      = jsMaxList ((batch.map normalizeRecord).map (fun r => r.articles)) (some 1) from rfl]
    rw [List.map_map]
    rfl
  rw [h0, jsMaxList_eq_listMax]
  · rw [List.map_map]
    rfl
  · intro x hx
    rcases List.mem_map.mp hx with ⟨r, hr, rfl⟩
    exact Option.isSome_iff_ne_none.mp (h r hr)

theorem maxRounds_eq (batch : List Raw)
    (h : ∀ r ∈ batch, ((normalizeRecord r).rounds).isSome = true) :
    (batchStatsOf (batch.map normalizeRecord)).maxRounds
      = some (listMax (batch.map roundsOf) 1) := by
  have h0 : (batchStatsOf (batch.map normalizeRecord)).maxRounds
      = jsMaxList (batch.map (fun r => (normalizeRecord r).rounds)) (some 1) := by
    rw [show (batchStatsOf (batch.map normalizeRecord)).maxRounds
      = jsMaxList ((batch.map normalizeRecord).map (fun r => r.rounds)) (some 1) from rfl]
    rw [List.map_map]
    rfl
  rw [h0, jsMaxList_eq_listMax]
  · rw [List.map_map]
    rfl
  · intro x hx
    rcases List.mem_map.mp hx with ⟨r, hr, rfl⟩
    exact Option.isSome_iff_ne_none.mp (h r hr)

theorem minRank_eq (batch : List Raw)
    (h : ∀ r ∈ batch, ((normalizeRecord r).rank).isSome = true) :
    (batchStatsOf (batch.map normalizeRecord)).minRank
      = some (listMin (batch.map rankOf) 1) := by
  have h0 : (batchStatsOf (batch.map normalizeRecord)).minRank
      = jsMinList (batch.map (fun r => (normalizeRecord r).rank)) (some 1) := by
    rw [show (batchStatsOf (batch.map normalizeRecord)).minRank
      = jsMinList ((batch.map normalizeRecord).map (fun r => r.rank)) (some 1) from rfl]
    rw [List.map_map]
    rfl
  rw [h0, jsMinList_eq_listMin]
  · rw [List.map_map]
    rfl
  · intro x hx
    rcases List.mem_map.mp hx with ⟨r, hr, rfl⟩
    exact Option.isSome_iff_ne_none.mp (h r hr)

theorem maxRank_eq (batch : List Raw)
    (h : ∀ r ∈ batch, ((normalizeRecord r).rank).isSome = true) :
    (batchStatsOf (batch.map normalizeRecord)).maxRank
      = some (listMax (batch.map rankOf) 100000) := by
  have h0 : (batchStatsOf (batch.map normalizeRecord)).maxRank
      = jsMaxList (batch.map (fun r => (normalizeRecord r).rank)) (some 100000) := by
    rw [show (batchStatsOf (batch.map normalizeRecord)).maxRank
      = jsMaxList ((batch.map normalizeRecord).map (fun r => r.rank)) (some 100000) from rfl]
    rw [List.map_map]
    rfl
  rw [h0, jsMaxList_eq_listMax]
  · rw [List.map_map]
    rfl
  · intro x hx
    rcases List.mem_map.mp hx with ⟨r, hr, rfl⟩
    exact Option.isSome_iff_ne_none.mp (h r hr)

/-! Closed forms of each score when the inputs parse. -/

theorem scoreCompany_funding_eq (st : BatchStats) (idx : ℕ) (nr : NormRec)
    {MF mF MR amt rd : ℚ}
    (hMF : st.maxFund = some MF) (hmF : st.minFund = some mF)
    (hMR : st.maxRounds = some MR)
    (hamt : nr.fundAmt = some amt) (hrd : nr.rounds = some rd)
    (hND : mF ≠ MF) (hMR0 : (0 : ℚ) ≠ MR) :
    (scoreCompany st idx nr).scores.funding =
      some (((amt - mF) / (MF - mF) * (7/10) + (rd - 0) / (MR - 0) * (3/10)) * 100) := by
  have h1 : (scoreCompany st idx nr).scores.funding =
      jsMul (jsAdd (jsMul (jsNormalize nr.fundAmt st.minFund st.maxFund) (some (7/10)))
        (jsMul (jsNormalize nr.rounds (some 0) st.maxRounds) (some (3/10)))) (some 100) := rfl
  rw [h1, hamt, hmF, hMF, hrd, hMR, jsNormalize_some hND, jsNormalize_some hMR0]
  simp [jsMul, jsAdd, jsBin]

theorem scoreCompany_ops_eq (st : BatchStats) (idx : ℕ) (nr : NormRec)
    {emp : ℚ} (hemp : parseEmployeeCount nr.raw.numberOfEmployees = some emp) :
    (scoreCompany st idx nr).scores.operations =
      some ((min emp 500 / 500 * (6/10)
        + (if orDefault nr.raw.operatingStatus "Active" = "Active" then (1 : ℚ) else 0) * (4/10)) * 100) := by
  have h1 : (scoreCompany st idx nr).scores.operations =
      jsMul (jsAdd (jsMul (jsDiv (jsMin (parseEmployeeCount nr.raw.numberOfEmployees) (some 500)) (some 500)) (some (6/10)))
        (some ((if orDefault nr.raw.operatingStatus "Active" = "Active" then (1 : ℚ) else 0) * (4/10)))) (some 100) := rfl
  rw [h1, hemp]
  have h500 : (500 : ℚ) ≠ 0 := by norm_num
  simp [jsMul, jsAdd, jsDiv, jsMin, jsBin, h500]

theorem scoreCompany_brandTrend_eq (st : BatchStats) (idx : ℕ) (nr : NormRec)
    {MA mRk MRk art rk : ℚ}
    (hMA : st.maxArticles = some MA) (hmRk : st.minRank = some mRk)
    (hMRk : st.maxRank = some MRk)
    (hart : nr.articles = some art) (hrk : nr.rank = some rk)
    (hMA0 : (0 : ℚ) ≠ MA) (hRkND : mRk ≠ MRk) :
    (scoreCompany st idx nr).scores.brandTrend =
      some (min ((1 - (rk - mRk) / (MRk - mRk)) * (1/2) + (art - 0) / (MA - 0) * (3/10)
        + (if anyTheme (themesOf nr.raw) then (2 : ℚ)/10 else 0)) 1 * 100) := by
  have h1 : (scoreCompany st idx nr).scores.brandTrend =
      jsMul (jsMin (jsAdd (jsAdd (jsMul (jsSub (some 1) (jsNormalize nr.rank st.minRank st.maxRank)) (some (1/2)))
        (jsMul (jsNormalize nr.articles (some 0) st.maxArticles) (some (3/10))))
        (some (if anyTheme (themesOf nr.raw) then (2 : ℚ)/10 else 0))) (some 1)) (some 100) := rfl
  rw [h1, hart, hMA, hrk, hmRk, hMRk, jsNormalize_some hRkND, jsNormalize_some hMA0]
  simp [jsMul, jsAdd, jsSub, jsMin, jsBin]

theorem scoreCompany_potential_eq (st : BatchStats) (idx : ℕ) (nr : NormRec)
    {f b : ℚ}
    (hf : (scoreCompany st idx nr).scores.funding = some f)
    (hb : (scoreCompany st idx nr).scores.brandTrend = some b) :
    (scoreCompany st idx nr).scores.potential =
      some ((stageScoreOf (lowerL (orDefault nr.raw.lastFundingType "").toList) * (4/10)
        + f / 100 * (3/10) + b / 100 * (3/10)) * 100) := by
  have h1 : (scoreCompany st idx nr).scores.potential =
      jsMul (jsAdd (jsAdd (some (stageScoreOf (lowerL (orDefault nr.raw.lastFundingType "").toList) * (4/10)))
        (jsMul (jsDiv (scoreCompany st idx nr).scores.funding (some 100)) (some (3/10))))
        (jsMul (jsDiv (scoreCompany st idx nr).scores.brandTrend (some 100)) (some (3/10)))) (some 100) := rfl
  rw [h1, hf, hb]
  have h100 : (100 : ℚ) ≠ 0 := by norm_num
  simp [jsMul, jsAdd, jsDiv, jsBin, h100]

theorem scoreCompany_comprehensive_eq (st : BatchStats) (idx : ℕ) (nr : NormRec)
    {f o b p : ℚ}
    (hf : (scoreCompany st idx nr).scores.funding = some f)
    (ho : (scoreCompany st idx nr).scores.operations = some o)
    (hb : (scoreCompany st idx nr).scores.brandTrend = some b)
    (hp : (scoreCompany st idx nr).scores.potential = some p) :
    (scoreCompany st idx nr).scores.comprehensive = some ((f + o + b + p) / 4) := by
  have h1 : (scoreCompany st idx nr).scores.comprehensive =
      jsDiv (jsAdd (jsAdd (jsAdd (scoreCompany st idx nr).scores.funding
        (scoreCompany st idx nr).scores.operations)
        (scoreCompany st idx nr).scores.brandTrend)
        (scoreCompany st idx nr).scores.potential) (some 4) := rfl
  rw [h1, hf, ho, hb, hp]
  have h4 : (4 : ℚ) ≠ 0 := by norm_num
  simp [jsAdd, jsDiv, jsBin, h4]

/-! Range bounds for each score shape. -/

theorem stageScoreOf_bounds (s : List Char) :
    3/10 ≤ stageScoreOf s ∧ stageScoreOf s ≤ 9/10 := by
  unfold stageScoreOf
  split_ifs <;> norm_num

theorem nonnegJs_isSome {x : JsNum} (h : nonnegJs x = true) : x.isSome = true := by
  rcases nonnegJs_some h with ⟨q, rfl, _⟩
  rfl

theorem funding_shape_bounds {x y : ℚ} (hx0 : 0 ≤ x) (hx1 : x ≤ 1)
    (hy0 : 0 ≤ y) (hy1 : y ≤ 1) :
    0 ≤ (x * (7/10) + y * (3/10)) * 100 ∧ (x * (7/10) + y * (3/10)) * 100 ≤ 100 := by
  constructor <;> nlinarith

theorem ops_shape_bounds {e act : ℚ} (he : 0 ≤ e) (hact : act = 1 ∨ act = 0) :
    0 ≤ (min e 500 / 500 * (6/10) + act * (4/10)) * 100 ∧
      (min e 500 / 500 * (6/10) + act * (4/10)) * 100 ≤ 100 := by
  have h0 : (0 : ℚ) ≤ min e 500 := le_min he (by norm_num)
  have h1 : min e 500 ≤ 500 := min_le_right _ _
  have h2 : min e 500 / 500 ≤ 1 := by
    rw [div_le_one (by norm_num : (0 : ℚ) < 500)]
    exact h1
  have h3 : 0 ≤ min e 500 / 500 := by positivity
  rcases hact with rfl | rfl <;> constructor <;> nlinarith

theorem brand_shape_bounds {x y kb : ℚ} (_hx0 : 0 ≤ x) (hx1 : x ≤ 1)
    (hy0 : 0 ≤ y) (_hy1 : y ≤ 1) (hkb : kb = 2/10 ∨ kb = 0) :
    0 ≤ min ((1 - x) * (1/2) + y * (3/10) + kb) 1 * 100 ∧
      min ((1 - x) * (1/2) + y * (3/10) + kb) 1 * 100 ≤ 100 := by
  have harg : 0 ≤ (1 - x) * (1/2) + y * (3/10) + kb := by
    rcases hkb with rfl | rfl <;> nlinarith
  have hlo : (0 : ℚ) ≤ min ((1 - x) * (1/2) + y * (3/10) + kb) 1 :=
    le_min harg (by norm_num)
  have hhi := min_le_right ((1 - x) * (1/2) + y * (3/10) + kb) (1 : ℚ)
  constructor <;> nlinarith

theorem potential_shape_bounds {sg f b : ℚ} (h1 : 3/10 ≤ sg) (h2 : sg ≤ 9/10)
    (hf0 : 0 ≤ f) (hf1 : f ≤ 100) (hb0 : 0 ≤ b) (hb1 : b ≤ 100) :
    0 ≤ (sg * (4/10) + f / 100 * (3/10) + b / 100 * (3/10)) * 100 ∧
      (sg * (4/10) + f / 100 * (3/10) + b / 100 * (3/10)) * 100 ≤ 100 := by
  constructor <;> nlinarith

theorem mean_shape_bounds {f o b p : ℚ} (hf0 : 0 ≤ f) (hf1 : f ≤ 100)
    (ho0 : 0 ≤ o) (ho1 : o ≤ 100) (hb0 : 0 ≤ b) (hb1 : b ≤ 100)
    (hp0 : 0 ≤ p) (hp1 : p ≤ 100) :
    0 ≤ (f + o + b + p) / 4 ∧ (f + o + b + p) / 4 ≤ 100 := by
  constructor <;> linarith

/-- Claim C1 (amended): for every batch whose records are well formed —
each numeric field parses to an actual number, article and round counts
are nonnegative, and the employee-range value is a nonnegative number —
every produced company's five scores are finite numbers in [0, 100] and
the comprehensive score is exactly the arithmetic mean of the other
four. -/
theorem claim_c1_amended : ∀ (currentYear : ℤ) (batch : List Raw),
    (∀ r ∈ batch, wellFormedB r = true) →
    ∀ c ∈ (processData currentYear batch).companies,
      ∃ f o b p : ℚ,
        c.scores.funding = some f ∧ c.scores.operations = some o ∧
        c.scores.brandTrend = some b ∧ c.scores.potential = some p ∧
        c.scores.comprehensive = some ((f + o + b + p) / 4) ∧
        0 ≤ f ∧ f ≤ 100 ∧ 0 ≤ o ∧ o ≤ 100 ∧ 0 ≤ b ∧ b ≤ 100 ∧
        0 ≤ p ∧ p ≤ 100 ∧ 0 ≤ (f + o + b + p) / 4 ∧ (f + o + b + p) / 4 ≤ 100 := by
  intro cur batch hwf c hc
  have hceq : (processData cur batch).companies =
      insSortBy (fun a b => jsLeB b.scores.comprehensive a.scores.comprehensive)
        (mapIdxFrom (fun i nr => scoreCompany (batchStatsOf (batch.map normalizeRecord)) i nr) 0
          (batch.map normalizeRecord)) := rfl
  rw [hceq] at hc
  have hc1 := mem_insSortBy.mp hc
  rcases mem_mapIdxFrom _ 0 _ _ hc1 with ⟨j, nr, hnrmem, rfl⟩
  rcases List.mem_map.mp hnrmem with ⟨r, hr, rfl⟩
  have hw := hwf r hr
  simp only [wellFormedB, Bool.and_eq_true] at hw
  obtain ⟨⟨⟨⟨hfundS, hartS⟩, hrkS⟩, hrdS⟩, hempS⟩ := hw
  rcases Option.isSome_iff_exists.mp hfundS with ⟨amt, hamt⟩
  rcases nonnegJs_some hartS with ⟨art, hart, hart0⟩
  rcases Option.isSome_iff_exists.mp hrkS with ⟨rk, hrk⟩
  rcases nonnegJs_some hrdS with ⟨rd, hrd, hrd0⟩
  rcases nonnegJs_some hempS with ⟨emp, hemp, hemp0⟩
  have hFundAll : ∀ r' ∈ batch, ((normalizeRecord r').fundAmt).isSome = true := by
    intro r' hr'
    have h2 := hwf r' hr'
    simp only [wellFormedB, Bool.and_eq_true] at h2
    exact h2.1.1.1.1
  have hArtAll : ∀ r' ∈ batch, ((normalizeRecord r').articles).isSome = true := by
    intro r' hr'
    have h2 := hwf r' hr'
    simp only [wellFormedB, Bool.and_eq_true] at h2
    exact nonnegJs_isSome h2.1.1.1.2
  have hRkAll : ∀ r' ∈ batch, ((normalizeRecord r').rank).isSome = true := by
    intro r' hr'
    have h2 := hwf r' hr'
    simp only [wellFormedB, Bool.and_eq_true] at h2
    exact h2.1.1.2
  have hRdAll : ∀ r' ∈ batch, ((normalizeRecord r').rounds).isSome = true := by
    intro r' hr'
    have h2 := hwf r' hr'
    simp only [wellFormedB, Bool.and_eq_true] at h2
    exact nonnegJs_isSome h2.1.2
  have hMF := maxFund_eq batch hFundAll
  have hmF := minFund_eq batch hFundAll
  have hMA := maxArticles_eq batch hArtAll
  have hMR := maxRounds_eq batch hRdAll
  have hmRk := minRank_eq batch hRkAll
  have hMRk := maxRank_eq batch hRkAll
  have hMF1 : (1 : ℚ) ≤ listMax (batch.map fundOf) 1 := le_listMax _ _
  have hmF0 : listMin (batch.map fundOf) 0 ≤ 0 := listMin_le _ _
  have hmFMF : listMin (batch.map fundOf) 0 < listMax (batch.map fundOf) 1 := by linarith
  have hMA1 : (1 : ℚ) ≤ listMax (batch.map articlesOf) 1 := le_listMax _ _
  have hMR1 : (1 : ℚ) ≤ listMax (batch.map roundsOf) 1 := le_listMax _ _
  have hmRk1 : listMin (batch.map rankOf) 1 ≤ 1 := listMin_le _ _
  have hMRk1 : (100000 : ℚ) ≤ listMax (batch.map rankOf) 100000 := le_listMax _ _
  have hRkND : listMin (batch.map rankOf) 1 < listMax (batch.map rankOf) 100000 := by linarith
  have hamtmem : amt ∈ batch.map fundOf := by
    refine List.mem_map.mpr ⟨r, hr, ?_⟩
    rw [fundOf, hamt]
    rfl
  have hartmem : art ∈ batch.map articlesOf := by
    refine List.mem_map.mpr ⟨r, hr, ?_⟩
    rw [articlesOf, hart]
    rfl
  have hrdmem : rd ∈ batch.map roundsOf := by
    refine List.mem_map.mpr ⟨r, hr, ?_⟩
    rw [roundsOf, hrd]
    rfl
  have hrkmem : rk ∈ batch.map rankOf := by
    refine List.mem_map.mpr ⟨r, hr, ?_⟩
    rw [rankOf, hrk]
    rfl
  have hamtle := mem_le_listMax (batch.map fundOf) 1 amt hamtmem
  have hmFamt := listMin_le_mem (batch.map fundOf) 0 amt hamtmem
  have hartle := mem_le_listMax (batch.map articlesOf) 1 art hartmem
  have hrdle := mem_le_listMax (batch.map roundsOf) 1 rd hrdmem
  have hrkle := mem_le_listMax (batch.map rankOf) 100000 rk hrkmem
  have hmRkrk := listMin_le_mem (batch.map rankOf) 1 rk hrkmem
  have hMRpos : (0 : ℚ) < listMax (batch.map roundsOf) 1 := by linarith
  have hMApos : (0 : ℚ) < listMax (batch.map articlesOf) 1 := by linarith
  have hf := scoreCompany_funding_eq (batchStatsOf (batch.map normalizeRecord)) j
    (normalizeRecord r) hMF hmF hMR hamt hrd (ne_of_lt hmFMF) (ne_of_lt hMRpos)
  have ho := scoreCompany_ops_eq (batchStatsOf (batch.map normalizeRecord)) j
    (normalizeRecord r) hemp
  have hb := scoreCompany_brandTrend_eq (batchStatsOf (batch.map normalizeRecord)) j
    (normalizeRecord r) hMA hmRk hMRk hart hrk (ne_of_lt hMApos) (ne_of_lt hRkND)
  have hp := scoreCompany_potential_eq (batchStatsOf (batch.map normalizeRecord)) j
    (normalizeRecord r) hf hb
  have hcomp := scoreCompany_comprehensive_eq (batchStatsOf (batch.map normalizeRecord)) j
    (normalizeRecord r) hf ho hb hp
  obtain ⟨hna0, hna1⟩ := normalize_bounds hmFamt hamtle hmFMF
  obtain ⟨hnd0, hnd1⟩ := normalize_bounds hrd0 hrdle hMRpos
  obtain ⟨hnr0, hnr1⟩ := normalize_bounds hmRkrk hrkle hRkND
  obtain ⟨hnt0, hnt1⟩ := normalize_bounds hart0 hartle hMApos
  obtain ⟨hf0, hf100⟩ := funding_shape_bounds hna0 hna1 hnd0 hnd1
  have hact : (if orDefault (normalizeRecord r).raw.operatingStatus "Active" = "Active"
        then (1 : ℚ) else 0) = 1 ∨
      (if orDefault (normalizeRecord r).raw.operatingStatus "Active" = "Active"
        then (1 : ℚ) else 0) = 0 := by
    split <;> simp
  obtain ⟨ho0, ho100⟩ := ops_shape_bounds hemp0 hact
  have hkb : (if anyTheme (themesOf (normalizeRecord r).raw) then (2 : ℚ)/10 else 0) = 2/10 ∨
      (if anyTheme (themesOf (normalizeRecord r).raw) then (2 : ℚ)/10 else 0) = 0 := by
    split <;> simp
  obtain ⟨hb0, hb100⟩ := brand_shape_bounds hnr0 hnr1 hnt0 hnt1 hkb
  obtain ⟨hs03, hs09⟩ := stageScoreOf_bounds
    (lowerL (orDefault (normalizeRecord r).raw.lastFundingType "").toList)
  obtain ⟨hp0, hp100⟩ := potential_shape_bounds hs03 hs09 hf0 hf100 hb0 hb100
  obtain ⟨hm0, hm100⟩ := mean_shape_bounds hf0 hf100 ho0 ho100 hb0 hb100 hp0 hp100
  exact ⟨_, _, _, _, hf, ho, hb, hp, hcomp, hf0, hf100, ho0, ho100, hb0, hb100,
    hp0, hp100, hm0, hm100⟩

/-- Witness for the amended claim C1 on the one-record batch of an
all-absent record (every field takes its default). -/
theorem claim_c1_amended_witness :
    (∀ r ∈ [({} : Raw)], wellFormedB r = true) ∧
    (∀ c ∈ (processData 2026 [({} : Raw)]).companies,
      ∃ f o b p : ℚ,
        c.scores.funding = some f ∧ c.scores.operations = some o ∧
        c.scores.brandTrend = some b ∧ c.scores.potential = some p ∧
        c.scores.comprehensive = some ((f + o + b + p) / 4) ∧
        0 ≤ f ∧ f ≤ 100 ∧ 0 ≤ o ∧ o ≤ 100 ∧ 0 ≤ b ∧ b ≤ 100 ∧
        0 ≤ p ∧ p ≤ 100 ∧ 0 ≤ (f + o + b + p) / 4 ∧ (f + o + b + p) / 4 ≤ 100) :=
  ⟨by with_unfolding_all decide,
   claim_c1_amended 2026 [{}] (by with_unfolding_all decide)⟩

/-- Claim C4 (amended): for every batch whose rank and article fields
parse, each produced company's brand/trend score equals the spec-style
formula with the code's padded batch extrema and the keyword bonus added
directly. -/
theorem claim_c4_amended : ∀ (currentYear : ℤ) (batch : List Raw),
    (∀ r ∈ batch, ranksParseB r = true) →
    ∀ c ∈ (processData currentYear batch).companies,
      c.scores.brandTrend = some (amendedBrandTrendScore batch c.raw) := by
  intro cur batch hpar c hc
  have hceq : (processData cur batch).companies =
      insSortBy (fun a b => jsLeB b.scores.comprehensive a.scores.comprehensive)
        (mapIdxFrom (fun i nr => scoreCompany (batchStatsOf (batch.map normalizeRecord)) i nr) 0
          (batch.map normalizeRecord)) := rfl
  rw [hceq] at hc
  rcases mem_mapIdxFrom _ 0 _ _ (mem_insSortBy.mp hc) with ⟨j, nr, hnrmem, rfl⟩
  rcases List.mem_map.mp hnrmem with ⟨r, hr, rfl⟩
  have hRkAll : ∀ r' ∈ batch, ((normalizeRecord r').rank).isSome = true := by
    intro r' hr'
    have h2 := hpar r' hr'
    simp only [ranksParseB, Bool.and_eq_true] at h2
    exact h2.1
  have hArtAll : ∀ r' ∈ batch, ((normalizeRecord r').articles).isSome = true := by
    intro r' hr'
    have h2 := hpar r' hr'
    simp only [ranksParseB, Bool.and_eq_true] at h2
    exact h2.2
  have h2 := hpar r hr
  simp only [ranksParseB, Bool.and_eq_true] at h2
  rcases Option.isSome_iff_exists.mp h2.1 with ⟨rk, hrk⟩
  rcases Option.isSome_iff_exists.mp h2.2 with ⟨art, hart⟩
  have hMA := maxArticles_eq batch hArtAll
  have hmRk := minRank_eq batch hRkAll
  have hMRk := maxRank_eq batch hRkAll
  have hMA1 : (1 : ℚ) ≤ listMax (batch.map articlesOf) 1 := le_listMax _ _
  have hmRk1 : listMin (batch.map rankOf) 1 ≤ 1 := listMin_le _ _
  have hMRk1 : (100000 : ℚ) ≤ listMax (batch.map rankOf) 100000 := le_listMax _ _
  have hMApos : (0 : ℚ) < listMax (batch.map articlesOf) 1 := by linarith
  have hRkND : listMin (batch.map rankOf) 1 < listMax (batch.map rankOf) 100000 := by
    linarith
  have hb := scoreCompany_brandTrend_eq (batchStatsOf (batch.map normalizeRecord)) j
    (normalizeRecord r) hMA hmRk hMRk hart hrk (ne_of_lt hMApos) (ne_of_lt hRkND)
  rw [show (normalizeRecord r).raw = r from rfl] at hb
  rw [hb]
  have hraw : (scoreCompany (batchStatsOf (batch.map normalizeRecord)) j
      (normalizeRecord r)).raw = r := rfl
  rw [hraw]
  congr 1
  have hne1 : ¬ (listMax (batch.map rankOf) 100000 = listMin (batch.map rankOf) 1) := by
    intro h
    rw [h] at hRkND
    exact lt_irrefl _ hRkND
  have hne2 : ¬ (listMax (batch.map articlesOf) 1 = 0) := by
    intro h
    rw [h] at hMApos
    exact lt_irrefl _ hMApos
  have h1 : rankOf r = rk := by
    rw [rankOf, hrk]
    rfl
  have h2a : articlesOf r = art := by
    rw [articlesOf, hart]
    rfl
  simp only [amendedBrandTrendScore, normalizeSpec, if_neg hne1, if_neg hne2, h1, h2a]
  rw [min_comm, mul_comm]
  congr 1
  congr 1
  ring

/-- Witness for the amended claim C4 on a one-record batch of rank 7 and
3 articles. -/
theorem claim_c4_amended_witness :
    (∀ r ∈ [({ cbRank := some "7", numberOfArticles := some "3" } : Raw)],
      ranksParseB r = true) ∧
    (∀ c ∈ (processData 2026
        [({ cbRank := some "7", numberOfArticles := some "3" } : Raw)]).companies,
      c.scores.brandTrend = some (amendedBrandTrendScore
        [({ cbRank := some "7", numberOfArticles := some "3" } : Raw)] c.raw)) :=
  ⟨by with_unfolding_all decide,
   claim_c4_amended 2026 [({ cbRank := some "7", numberOfArticles := some "3" } : Raw)]
     (by with_unfolding_all decide)⟩

/-! Row scanning: safe fields are counted one per comma separator. -/

theorem fs_broke_mono : ∀ (l : List Char) (q : Bool),
    (l.foldl fsStep (q, true)).2 = true := by
  intro l
  induction l with
  | nil => intro q; rfl
  | cons c rest ih =>
    intro q
    simp only [List.foldl_cons]
    by_cases h1 : c = '"'
    · simp only [fsStep, if_pos h1]
      exact ih (!q)
    · by_cases h2 : (c = ',' && !q) = true
      · simp only [fsStep, if_neg h1, if_pos h2]
        exact ih q
      · simp only [fsStep, if_neg h1, if_neg h2]
        exact ih q

/-- Scanning a field that neither breaks nor ends in a quote leaves the
accumulated row unchanged and extends only the current cell. -/
theorem scan_no_break : ∀ (f : List Char) (q : Bool) (q2 : Bool),
    (f.foldl fsStep (q, false)) = (q2, false) →
    ∀ (cell : List Char) (acc : List (List Char)),
      ∃ cell2, f.foldl scanStep (q, cell, acc) = (q2, cell2, acc) := by
  intro f
  induction f with
  | nil =>
    intro q q2 h cell acc
    simp only [List.foldl_nil] at h ⊢
    obtain ⟨rfl, _⟩ := Prod.mk.injEq .. ▸ And.intro (congrArg Prod.fst h) (congrArg Prod.snd h)
    exact ⟨cell, rfl⟩
  | cons c rest ih =>
    intro q q2 h cell acc
    simp only [List.foldl_cons] at h ⊢
    by_cases h1 : c = '"'
    · simp only [fsStep, if_pos h1] at h
      simp only [scanStep, if_pos h1]
      exact ih (!q) q2 h cell acc
    · by_cases h2 : (c = ',' && !q) = true
      · simp only [fsStep, if_neg h1, if_pos h2] at h
        have := fs_broke_mono rest q
        rw [h] at this
        simp at this
      · simp only [fsStep, if_neg h1, if_neg h2] at h
        simp only [scanStep, if_neg h1, if_neg h2]
        exact ih q q2 h (cell ++ [c]) acc

theorem fieldSafe_fold {f : List Char} (h : fieldSafe f = true) :
    f.foldl fsStep (false, false) = (false, false) := by
  simp only [fieldSafe, Bool.and_eq_true, Bool.not_eq_true'] at h
  obtain ⟨h1, h2⟩ := h
  exact Prod.ext h1 h2

theorem scan_field_safe {f : List Char} (h : fieldSafe f = true) :
    ∀ (cell : List Char) (acc : List (List Char)),
      ∃ cell2, f.foldl scanStep (false, cell, acc) = (false, cell2, acc) :=
  scan_no_break f false false (fieldSafe_fold h)

theorem intercalate_comma_cons (f g : List Char) (t : List (List Char)) :
    List.intercalate [','] (f :: g :: t) = f ++ ',' :: List.intercalate [','] (g :: t) := by
  simp [List.intercalate, List.intersperse]

/-- Scanning a comma-joined list of safe fields breaks exactly at the
separators: one cell per field. -/
theorem scan_inter_count : ∀ (fields : List (List Char)), fields ≠ [] →
    (∀ f ∈ fields, fieldSafe f = true) →
    ∀ acc : List (List Char),
      ∃ cell2 acc2,
        (List.intercalate [','] fields).foldl scanStep (false, [], acc)
          = (false, cell2, acc2) ∧ acc2.length + 1 = acc.length + fields.length := by
  intro fields
  induction fields with
  | nil => intro h; exact absurd rfl h
  | cons f rest ih =>
    intro _ hsafe acc
    rcases rest with _ | ⟨g, t⟩
    · have h1 : List.intercalate [','] [f] = f := by
        simp [List.intercalate, List.intersperse]
      rw [h1]
      rcases scan_field_safe (hsafe f (by simp)) [] acc with ⟨cell2, hc⟩
      exact ⟨cell2, acc, hc, by simp⟩
    · rw [intercalate_comma_cons, List.foldl_append]
      rcases scan_field_safe (hsafe f (by simp)) [] acc with ⟨cell2, hc⟩
      rw [hc]
      simp only [List.foldl_cons]
      have hstep : scanStep (false, cell2, acc) ','
          = (false, [], acc ++ [cleanCell cell2]) := rfl
      rw [hstep]
      rcases ih (by simp) (fun f' hf' => hsafe f' (List.mem_cons_of_mem _ hf'))
        (acc ++ [cleanCell cell2]) with ⟨cell3, acc3, hc3, hlen⟩
      refine ⟨cell3, acc3, hc3, ?_⟩
      simp only [List.length_append, List.length_singleton, List.length_cons,
        List.length_nil] at hlen ⊢
      omega

/-- The scanned cell count of a row joined from safe fields. -/
theorem scanRowCells_inter_count (fields : List (List Char)) (hne : fields ≠ [])
    (hsafe : ∀ f ∈ fields, fieldSafe f = true) :
    (scanRowCells (List.intercalate [','] fields)).length = fields.length := by
  rcases scan_inter_count fields hne hsafe [] with ⟨cell2, acc2, hc, hlen⟩
  simp only [scanRowCells, hc]
  simp at hlen ⊢
  omega

/-! Which fields are safe. -/

theorem fs_plain_aux : ∀ (f : List Char) (q br : Bool),
    (∀ c ∈ f, c ≠ ',' ∧ c ≠ '"') → f.foldl fsStep (q, br) = (q, br) := by
  intro f
  induction f with
  | nil => intro q br _; rfl
  | cons c rest ih =>
    intro q br h
    obtain ⟨hc1, hc2⟩ := h c (by simp)
    simp only [List.foldl_cons, fsStep, if_neg hc2]
    have : (c = ',' && !q) = false := by
      simp [hc1]
    rw [this]
    simp only [Bool.false_eq_true, if_false]
    exact ih q br (fun c' hc' => h c' (List.mem_cons_of_mem _ hc'))

theorem fieldSafe_plain (f : List Char) (h : ∀ c ∈ f, c ≠ ',' ∧ c ≠ '"') :
    fieldSafe f = true := by
  simp only [fieldSafe, fs_plain_aux f false false h]
  rfl

theorem fs_inquote_noquote_aux : ∀ (f : List Char) (br : Bool),
    (∀ c ∈ f, c ≠ '"') → f.foldl fsStep (true, br) = (true, br) := by
  intro f
  induction f with
  | nil => intro br _; rfl
  | cons c rest ih =>
    intro br h
    have hc := h c (by simp)
    simp only [List.foldl_cons, fsStep, if_neg hc]
    have : (c = ',' && !true) = false := by simp
    rw [this]
    simp only [Bool.false_eq_true, if_false]
    exact ih br (fun c' hc' => h c' (List.mem_cons_of_mem _ hc'))

theorem fs_dquote_aux : ∀ (s : List Char) (br : Bool),
    (dquoteChars s).foldl fsStep (true, br) = (true, br) := by
  intro s
  induction s with
  | nil => intro br; rfl
  | cons c rest ih =>
    intro br
    by_cases h : c = '"'
    · subst h
      have hl : dquoteChars ('"' :: rest) = '"' :: '"' :: dquoteChars rest := by
        simp [dquoteChars]
      rw [hl]
      simp only [List.foldl_cons, fsStep, if_pos rfl]
      exact ih br
    · have hl : dquoteChars (c :: rest) = c :: dquoteChars rest := by
        simp [dquoteChars, h]
      rw [hl]
      simp only [List.foldl_cons, fsStep, if_neg h]
      have : (c = ',' && !true) = false := by simp
      rw [this]
      simp only [Bool.false_eq_true, if_false]
      exact ih br

theorem fieldSafe_wrap_of_inquote {body : List Char}
    (h : body.foldl fsStep (true, false) = (true, false)) :
    fieldSafe (quoteWrap body) = true := by
  simp only [fieldSafe, quoteWrap, List.foldl_cons, List.foldl_append]
  rw [show fsStep ((false : Bool), (false : Bool)) '"' = (true, false) from rfl]
  rw [h]
  rfl

theorem fieldSafe_wrap_dquote (s : List Char) :
    fieldSafe (quoteWrap (dquoteChars s)) = true :=
  fieldSafe_wrap_of_inquote (fs_dquote_aux s false)

theorem fieldSafe_wrap_noquote (body : List Char) (h : ∀ c ∈ body, c ≠ '"') :
    fieldSafe (quoteWrap body) = true :=
  fieldSafe_wrap_of_inquote (fs_inquote_noquote_aux body false h)

/-! Character classes of the numeric renderings. -/

theorem natCharsAux_digits : ∀ (fuel n : ℕ), ∀ c ∈ natCharsAux fuel n, c.isDigit = true := by
  intro fuel
  induction fuel with
  | zero => intro n c hc; simp [natCharsAux] at hc
  | succ fu ih =>
    intro n c hc
    simp only [natCharsAux] at hc
    split at hc
    · rename_i h10
      simp only [List.mem_singleton] at hc
      subst hc
      interval_cases n <;> decide
    · rcases List.mem_append.mp hc with h | h
      · exact ih _ c h
      · simp only [List.mem_singleton] at h
        subst h
        have : n % 10 < 10 := Nat.mod_lt _ (by omega)
        interval_cases hm : (n % 10) <;> decide

theorem natChars_digits (n : ℕ) : ∀ c ∈ natChars n, c.isDigit = true :=
  natCharsAux_digits (n + 1) n

theorem natChars_ne_nil (n : ℕ) : natChars n ≠ [] := by
  rw [natChars]
  rcases n with _ | m
  · simp [natCharsAux]
  · simp only [natCharsAux]
    split
    · simp
    · simp

theorem pad2_digits (n : ℕ) : ∀ c ∈ pad2 n, c.isDigit = true := by
  intro c hc
  rw [pad2] at hc
  split at hc
  · rcases List.mem_cons.mp hc with rfl | h
    · decide
    · exact natChars_digits n c h
  · exact natChars_digits n c hc

theorem digit_not_special {c : Char} (h : c.isDigit = true) :
    c ≠ ',' ∧ c ≠ '"' ∧ c ≠ '\n' := by
  refine ⟨?_, ?_, ?_⟩ <;> rintro rfl <;> simp at h

theorem toFixed2_chars (x : JsNum) :
    ∀ c ∈ toFixed2 x, c ≠ ',' ∧ c ≠ '"' ∧ c ≠ '\n' := by
  intro c hc
  rcases x with _ | q
  · simp only [toFixed2] at hc
    rcases List.mem_cons.mp hc with rfl | hc2
    · decide
    · rcases List.mem_cons.mp hc2 with rfl | hc3
      · decide
      · rcases List.mem_cons.mp hc3 with rfl | hc4
        · decide
        · simp at hc4
  · simp only [toFixed2, List.mem_append] at hc
    rcases hc with (hc | hc) | hc
    · split at hc
      · rcases List.mem_cons.mp hc with rfl | h
        · decide
        · simp at h
      · simp at hc
    · exact digit_not_special (natChars_digits _ c hc)
    · rcases List.mem_cons.mp hc with rfl | hc2
      · decide
      · exact digit_not_special (pad2_digits _ c hc2)

theorem mem_dquoteChars {c : Char} {s : List Char} (h : c ∈ dquoteChars s) :
    c ∈ s ∨ c = '"' := by
  simp only [dquoteChars, List.mem_flatMap] at h
  rcases h with ⟨a, ha, hc⟩
  by_cases h2 : a = '"'
  · subst h2
    simp only [if_pos rfl] at hc
    rcases List.mem_cons.mp hc with rfl | hc2
    · exact Or.inr rfl
    · rcases List.mem_cons.mp hc2 with rfl | hc3
      · exact Or.inr rfl
      · simp at hc3
  · simp only [if_neg h2, List.mem_singleton] at hc
    subst hc
    exact Or.inl ha

theorem dquoteChars_noquote {s : List Char} (h : ∀ c ∈ s, c ≠ '"') :
    dquoteChars s = s := by
  induction s with
  | nil => rfl
  | cons c rest ih =>
    have hc := h c (by simp)
    have hl : dquoteChars (c :: rest) = c :: dquoteChars rest := by
      simp [dquoteChars, hc]
    rw [hl, ih (fun c' hc' => h c' (List.mem_cons_of_mem _ hc'))]

theorem length_mapIdxFrom {α β : Type} (f : ℕ → α → β) :
    ∀ (i : ℕ) (l : List α), (mapIdxFrom f i l).length = l.length := by
  intro i l
  induction l generalizing i with
  | nil => rfl
  | cons a as ih => simp [mapIdxFrom, ih]

theorem mem_quoteWrap {c : Char} {body : List Char} (h : c ∈ quoteWrap body) :
    c = '"' ∨ c ∈ body := by
  rcases List.mem_cons.mp h with rfl | h2
  · exact Or.inl rfl
  · rcases List.mem_append.mp h2 with h3 | h3
    · exact Or.inr h3
    · rcases List.mem_cons.mp h3 with rfl | h4
      · exact Or.inl rfl
      · simp at h4

theorem mem_intercalate_comma {c : Char} :
    ∀ {fields : List (List Char)}, c ∈ List.intercalate [','] fields →
      c = ',' ∨ ∃ f ∈ fields, c ∈ f := by
  intro fields
  induction fields with
  | nil => intro h; simp [List.intercalate, List.intersperse] at h
  | cons f rest ih =>
    intro h
    rcases rest with _ | ⟨g, t⟩
    · rw [show List.intercalate [','] [f] = f from by
        simp [List.intercalate, List.intersperse]] at h
      exact Or.inr ⟨f, by simp, h⟩
    · rw [intercalate_comma_cons] at h
      rcases List.mem_append.mp h with h2 | h2
      · exact Or.inr ⟨f, by simp, h2⟩
      · rcases List.mem_cons.mp h2 with rfl | h3
        · exact Or.inl rfl
        · rcases ih h3 with h4 | ⟨f', hf', hc'⟩
          · exact Or.inl h4
          · exact Or.inr ⟨f', List.mem_cons_of_mem _ hf', hc'⟩

theorem mem_dropWhile_of_neg {α : Type} {p : α → Bool} :
    ∀ {l : List α} {x : α}, x ∈ l → p x = false → x ∈ l.dropWhile p := by
  intro l
  induction l with
  | nil => intro x h _; simp at h
  | cons a as ih =>
    intro x h hp
    by_cases ha : p a = true
    · rw [List.dropWhile_cons_of_pos ha]
      rcases List.mem_cons.mp h with rfl | h2
      · rw [hp] at ha; simp at ha
      · exact ih h2 hp
    · rw [List.dropWhile_cons_of_neg ha]
      exact h

theorem trimL_ne_nil {l : List Char} {ch : Char} (h : ch ∈ l)
    (hw : ch.isWhitespace = false) : trimL l ≠ [] := by
  have h1 : ch ∈ l.dropWhile Char.isWhitespace := mem_dropWhile_of_neg h hw
  have h2 : ch ∈ (l.dropWhile Char.isWhitespace).reverse := List.mem_reverse.mpr h1
  have h3 : ch ∈ (l.dropWhile Char.isWhitespace).reverse.dropWhile Char.isWhitespace :=
    mem_dropWhile_of_neg h2 hw
  have h4 : ch ∈ trimL l := by
    rw [trimL]
    exact List.mem_reverse.mpr h3
  exact List.ne_nil_of_mem h4

/-- All eleven fields of a safely exported row are scan-safe. -/
theorem exportRowFields_safe {c : ScoredCompany} (hs : exportSafe c = true)
    (i : ℕ) : ∀ f ∈ exportRowFields i c, fieldSafe f = true := by
  simp only [exportSafe, Bool.and_eq_true] at hs
  obtain ⟨⟨⟨⟨⟨_hnm, _hloc⟩, _hind⟩, _hdsc⟩, hurl⟩, hdq⟩ := hs
  intro f hf
  simp only [exportRowFields] at hf
  rcases List.mem_cons.mp hf with rfl | hf
  · exact fieldSafe_plain _ (fun ch hch => ⟨(digit_not_special (natChars_digits _ ch hch)).1,
      (digit_not_special (natChars_digits _ ch hch)).2.1⟩)
  rcases List.mem_cons.mp hf with rfl | hf
  · exact fieldSafe_wrap_dquote _
  rcases List.mem_cons.mp hf with rfl | hf
  · exact fieldSafe_plain _ (fun ch hch => ⟨(toFixed2_chars _ ch hch).1, (toFixed2_chars _ ch hch).2.1⟩)
  rcases List.mem_cons.mp hf with rfl | hf
  · exact fieldSafe_plain _ (fun ch hch => ⟨(toFixed2_chars _ ch hch).1, (toFixed2_chars _ ch hch).2.1⟩)
  rcases List.mem_cons.mp hf with rfl | hf
  · exact fieldSafe_plain _ (fun ch hch => ⟨(toFixed2_chars _ ch hch).1, (toFixed2_chars _ ch hch).2.1⟩)
  rcases List.mem_cons.mp hf with rfl | hf
  · exact fieldSafe_plain _ (fun ch hch => ⟨(toFixed2_chars _ ch hch).1, (toFixed2_chars _ ch hch).2.1⟩)
  rcases List.mem_cons.mp hf with rfl | hf
  · exact fieldSafe_plain _ (fun ch hch => ⟨(toFixed2_chars _ ch hch).1, (toFixed2_chars _ ch hch).2.1⟩)
  rcases List.mem_cons.mp hf with rfl | hf
  · exact fieldSafe_wrap_dquote _
  rcases List.mem_cons.mp hf with rfl | hf
  · exact fieldSafe_wrap_dquote _
  rcases List.mem_cons.mp hf with rfl | hf
  · rw [Bool.or_eq_true] at hdq
    rcases hdq with hnq | hlen
    · simp only [descText, List.all_eq_true, decide_eq_true_eq] at hnq
      refine fieldSafe_wrap_noquote _ ?_
      intro ch hch
      have hch2 := List.mem_of_mem_take hch
      rw [dquoteChars_noquote hnq] at hch2
      exact hnq ch hch2
    · simp only [descText, decide_eq_true_eq] at hlen
      rw [List.take_of_length_le hlen]
      exact fieldSafe_wrap_dquote _
  rcases List.mem_cons.mp hf with rfl | hf
  · simp only [List.all_eq_true, Bool.and_eq_true, decide_eq_true_eq] at hurl
    refine fieldSafe_plain _ ?_
    intro ch hch
    have h3 := hurl ch hch
    exact ⟨h3.1.1, h3.1.2⟩
  · simp at hf

theorem wrap_dq_no_newline {s : List Char} (h : noNl s = true) :
    ∀ ch ∈ quoteWrap (dquoteChars s), ch ≠ '\n' := by
  simp only [noNl, List.all_eq_true, decide_eq_true_eq] at h
  intro ch hch
  rcases mem_quoteWrap hch with rfl | h2
  · decide
  · rcases mem_dquoteChars h2 with h3 | rfl
    · exact h ch h3
    · decide

/-- No character of a safely exported row is a newline. -/
theorem exportRow_no_newline {c : ScoredCompany} (hs : exportSafe c = true) (i : ℕ) :
    ∀ ch ∈ List.intercalate [','] (exportRowFields i c), ch ≠ '\n' := by
  have hs' := hs
  simp only [exportSafe, Bool.and_eq_true] at hs'
  obtain ⟨⟨⟨⟨⟨hnm, hloc⟩, hind⟩, hdsc⟩, hurl⟩, _hdq⟩ := hs'
  intro ch hch
  rcases mem_intercalate_comma hch with rfl | ⟨f, hf, hcf⟩
  · decide
  simp only [exportRowFields] at hf
  rcases List.mem_cons.mp hf with rfl | hf
  · exact (digit_not_special (natChars_digits _ ch hcf)).2.2
  rcases List.mem_cons.mp hf with rfl | hf
  · exact wrap_dq_no_newline hnm ch hcf
  rcases List.mem_cons.mp hf with rfl | hf
  · exact (toFixed2_chars _ ch hcf).2.2
  rcases List.mem_cons.mp hf with rfl | hf
  · exact (toFixed2_chars _ ch hcf).2.2
  rcases List.mem_cons.mp hf with rfl | hf
  · exact (toFixed2_chars _ ch hcf).2.2
  rcases List.mem_cons.mp hf with rfl | hf
  · exact (toFixed2_chars _ ch hcf).2.2
  rcases List.mem_cons.mp hf with rfl | hf
  · exact (toFixed2_chars _ ch hcf).2.2
  rcases List.mem_cons.mp hf with rfl | hf
  · exact wrap_dq_no_newline hloc ch hcf
  rcases List.mem_cons.mp hf with rfl | hf
  · exact wrap_dq_no_newline hind ch hcf
  rcases List.mem_cons.mp hf with rfl | hf
  · simp only [noNl, List.all_eq_true, decide_eq_true_eq, descText] at hdsc
    rcases mem_quoteWrap hcf with rfl | h2
    · decide
    · rcases mem_dquoteChars (List.mem_of_mem_take h2) with h3 | rfl
      · exact hdsc ch h3
      · decide
  rcases List.mem_cons.mp hf with rfl | hf
  · simp only [List.all_eq_true, Bool.and_eq_true, decide_eq_true_eq] at hurl
    exact (hurl ch hcf).2
  · simp at hf

theorem comma_mem_intercalate (f g : List Char) (t : List (List Char)) :
    ',' ∈ List.intercalate [','] (f :: g :: t) := by
  rw [intercalate_comma_cons]
  exact List.mem_append.mpr (Or.inr (by simp))

/-- Claim C8 (amended): the exporter/parser round trip preserves the
record count for every company sequence whose exported text is benign
(no newline in the textual fields, a comma-, quote- and newline-free
website, and a description whose quote doubling is not cut by the
truncation). -/
theorem claim_c8_amended : ∀ cs : List ScoredCompany,
    (∀ c ∈ cs, exportSafe c = true) →
    (parseCSV (exportCompaniesToCSV cs)).length = cs.length := by
  intro cs hsafe
  rw [show parseCSV (exportCompaniesToCSV cs) = parseCSVL (exportL cs) from rfl]
  have hexp : exportL cs = List.intercalate ['\n']
      ((List.intercalate [','] headerFields) ::
        mapIdxFrom (fun i c => List.intercalate [','] (exportRowFields (i + 1) c)) 0 cs) := rfl
  have hnl : ∀ l ∈ (List.intercalate [','] headerFields) ::
      mapIdxFrom (fun i c => List.intercalate [','] (exportRowFields (i + 1) c)) 0 cs,
      '\n' ∉ l := by
    intro l hl
    rcases List.mem_cons.mp hl with rfl | hl2
    · decide
    · rcases mem_mapIdxFrom _ 0 _ _ hl2 with ⟨j, c, hcmem, rfl⟩
      intro hin
      exact exportRow_no_newline (hsafe c hcmem) (j + 1) '\n' hin rfl
  have hsplit : List.splitOn '\n' (exportL cs)
      = (List.intercalate [','] headerFields) ::
        mapIdxFrom (fun i c => List.intercalate [','] (exportRowFields (i + 1) c)) 0 cs := by
    rw [hexp]
    exact List.splitOn_intercalate _ '\n' hnl (by simp)
  have hfilter : (List.splitOn '\n' (exportL cs)).filter (fun l => trimL l ≠ [])
      = (List.intercalate [','] headerFields) ::
        mapIdxFrom (fun i c => List.intercalate [','] (exportRowFields (i + 1) c)) 0 cs := by
    rw [hsplit]
    rw [List.filter_eq_self.mpr]
    intro l hl
    rcases List.mem_cons.mp hl with rfl | hl2
    · with_unfolding_all decide
    · rcases mem_mapIdxFrom _ 0 _ _ hl2 with ⟨j, c, hcmem, rfl⟩
      have hcomma : ',' ∈ List.intercalate [','] (exportRowFields (j + 1) c) := by
        simp only [exportRowFields]
        exact comma_mem_intercalate _ _ _
      exact decide_eq_true (trimL_ne_nil hcomma (by decide))
  simp only [parseCSVL]
  rw [hfilter]
  rcases cs with _ | ⟨c0, cs'⟩
  · simp [mapIdxFrom]
  · have hrl : (mapIdxFrom (fun i c => List.intercalate [','] (exportRowFields (i + 1) c)) 0
        (c0 :: cs')).length = (c0 :: cs').length := length_mapIdxFrom _ 0 _
    rw [if_neg (by
      simp only [List.length_cons, hrl]
      omega)]
    simp only [List.headD_cons, List.drop_one, List.tail_cons]
    rw [foldl_if_append (fun line => ((scanRowCells line).map String.mk).length
      = ((List.splitOn ',' (List.intercalate [','] headerFields)).map
          (fun h => String.mk (cleanCell h))).length)
      (fun line => mkRecordObj
        ((List.splitOn ',' (List.intercalate [','] headerFields)).map
          (fun h => String.mk (cleanCell h)))
        ((scanRowCells line).map String.mk))]
    rw [List.filter_eq_self.mpr]
    · simp only [List.nil_append, List.length_map]
      exact length_mapIdxFrom _ 0 _
    · intro row hrow
      rcases mem_mapIdxFrom _ 0 _ _ hrow with ⟨j, c, hcmem, rfl⟩
      refine decide_eq_true ?_
      rw [List.length_map, List.length_map]
      have h11 : (scanRowCells (List.intercalate [','] (exportRowFields (j + 1) c))).length
          = (exportRowFields (j + 1) c).length :=
        scanRowCells_inter_count _ (by simp [exportRowFields])
          (exportRowFields_safe (hsafe c hcmem) (j + 1))
      rw [h11]
      rw [show (exportRowFields (j + 1) c).length = 11 from rfl]
      with_unfolding_all rfl

/-- Witness for the amended claim C8: one company whose name even
contains a comma (protected by the quoting) round-trips. -/
theorem claim_c8_amended_witness :
    (∀ c ∈ [sampleCompany rawAcmeInc], exportSafe c = true) ∧
    (parseCSV (exportCompaniesToCSV [sampleCompany rawAcmeInc])).length
      = [sampleCompany rawAcmeInc].length :=
  ⟨by with_unfolding_all decide,
   claim_c8_amended _ (by with_unfolding_all decide)⟩

/-! Claim C6: trend aggregation. -/

theorem trend_fold_eq (cur : ℤ) : ∀ (scored : List ScoredCompany) (m : List (ℤ × TCounts)),
    scored.foldl (trendStep cur) m = applyEvents {} (trendEvents cur scored) m := by
  intro scored
  induction scored with
  | nil => intro m; rfl
  | cons c rest ih =>
    intro m
    by_cases h : 1990 < yearOfRecord c.raw ∧ yearOfRecord c.raw ≤ cur
    · simp only [List.foldl_cons, trendStep, if_pos h, trendEvents, List.filterMap_cons,
        if_pos h, applyEvents_cons]
      exact ih _
    · simp only [List.foldl_cons, trendStep, if_neg h, trendEvents, List.filterMap_cons,
        if_neg h]
      exact ih m

theorem trend_events_filter (cur y : ℤ) (hy : 1990 < y ∧ y ≤ cur) :
    ∀ scored : List ScoredCompany,
      (trendEvents cur scored).filter (fun e => e.1 = y)
        = (scored.filter (fun c => decide (yearOfRecord c.raw = y))).map
            (fun c => (y, bumpTCounts c.themes)) := by
  intro scored
  induction scored with
  | nil => rfl
  | cons c rest ih =>
    simp only [trendEvents] at ih ⊢
    by_cases h : 1990 < yearOfRecord c.raw ∧ yearOfRecord c.raw ≤ cur
    · by_cases hcy : yearOfRecord c.raw = y
      · simp [List.filterMap_cons, if_pos h, List.filter_cons, hcy, hy.1, hy.2, ih]
      · simp [List.filterMap_cons, if_pos h, List.filter_cons, hcy, ih]
    · have hcy : ¬ (yearOfRecord c.raw = y) := by
        intro hc
        rw [hc] at h
        exact h hy
      simp [List.filterMap_cons, if_neg h, List.filter_cons, hcy, ih]

/-! Transfer of counting predicates from the scored list back to the raw
batch. -/

theorem countP_mapIdxFrom {α β : Type} (f : ℕ → α → β) (p : β → Bool)
    (q : α → Bool) (hpq : ∀ i a, p (f i a) = q a) :
    ∀ (i : ℕ) (l : List α), (mapIdxFrom f i l).countP p = l.countP q := by
  intro i l
  induction l generalizing i with
  | nil => rfl
  | cons x xs ih =>
    simp only [mapIdxFrom, List.countP_cons, ih, hpq]

theorem countP_scoredOf (batch : List Raw) (p : ScoredCompany → Bool) (q : Raw → Bool)
    (hpq : ∀ st i nr, p (scoreCompany st i nr) = q nr.raw) :
    (scoredOf batch).countP p = batch.countP q := by
  unfold scoredOf
  rw [countP_mapIdxFrom _ p (fun nr => q nr.raw) (fun i a => hpq _ i a)]
  rw [List.countP_map]
  rfl

/-! Field characterization of the trend counter fold. -/

theorem foldBump_count : ∀ (cs : List ScoredCompany) (v : TCounts),
    (foldBump cs v).count = v.count + cs.length := by
  intro cs
  induction cs with
  | nil => intro v; simp [foldBump]
  | cons c rest ih =>
    intro v
    rw [show foldBump (c :: rest) v = foldBump rest (bumpTCounts c.themes v) from rfl, ih]
    simp [bumpTCounts]
    omega

theorem foldBump_AI : ∀ (cs : List ScoredCompany) (v : TCounts),
    (foldBump cs v).AI = v.AI + cs.countP (fun c => c.themes.ai) := by
  intro cs
  induction cs with
  | nil => intro v; simp [foldBump]
  | cons c rest ih =>
    intro v
    rw [show foldBump (c :: rest) v = foldBump rest (bumpTCounts c.themes v) from rfl, ih]
    rcases Bool.eq_false_or_eq_true c.themes.ai with h | h <;>
      simp [bumpTCounts, List.countP_cons, h] <;> omega

theorem foldBump_Climate : ∀ (cs : List ScoredCompany) (v : TCounts),
    (foldBump cs v).Climate = v.Climate + cs.countP (fun c => c.themes.climate) := by
  intro cs
  induction cs with
  | nil => intro v; simp [foldBump]
  | cons c rest ih =>
    intro v
    rw [show foldBump (c :: rest) v = foldBump rest (bumpTCounts c.themes v) from rfl, ih]
    rcases Bool.eq_false_or_eq_true c.themes.climate with h | h <;>
      simp [bumpTCounts, List.countP_cons, h] <;> omega

theorem foldBump_Fintech : ∀ (cs : List ScoredCompany) (v : TCounts),
    (foldBump cs v).Fintech = v.Fintech + cs.countP (fun c => c.themes.fintech) := by
  intro cs
  induction cs with
  | nil => intro v; simp [foldBump]
  | cons c rest ih =>
    intro v
    rw [show foldBump (c :: rest) v = foldBump rest (bumpTCounts c.themes v) from rfl, ih]
    rcases Bool.eq_false_or_eq_true c.themes.fintech with h | h <;>
      simp [bumpTCounts, List.countP_cons, h] <;> omega

theorem foldBump_Healthcare : ∀ (cs : List ScoredCompany) (v : TCounts),
    (foldBump cs v).Healthcare = v.Healthcare + cs.countP (fun c => c.themes.healthcare) := by
  intro cs
  induction cs with
  | nil => intro v; simp [foldBump]
  | cons c rest ih =>
    intro v
    rw [show foldBump (c :: rest) v = foldBump rest (bumpTCounts c.themes v) from rfl, ih]
    rcases Bool.eq_false_or_eq_true c.themes.healthcare with h | h <;>
      simp [bumpTCounts, List.countP_cons, h] <;> omega

theorem foldBump_SaaS : ∀ (cs : List ScoredCompany) (v : TCounts),
    (foldBump cs v).SaaS = v.SaaS + cs.countP (fun c => c.themes.saas) := by
  intro cs
  induction cs with
  | nil => intro v; simp [foldBump]
  | cons c rest ih =>
    intro v
    rw [show foldBump (c :: rest) v = foldBump rest (bumpTCounts c.themes v) from rfl, ih]
    rcases Bool.eq_false_or_eq_true c.themes.saas with h | h <;>
      simp [bumpTCounts, List.countP_cons, h] <;> omega

theorem foldBump_Consumer : ∀ (cs : List ScoredCompany) (v : TCounts),
    (foldBump cs v).Consumer = v.Consumer + cs.countP (fun c => c.themes.consumer) := by
  intro cs
  induction cs with
  | nil => intro v; simp [foldBump]
  | cons c rest ih =>
    intro v
    rw [show foldBump (c :: rest) v = foldBump rest (bumpTCounts c.themes v) from rfl, ih]
    rcases Bool.eq_false_or_eq_true c.themes.consumer with h | h <;>
      simp [bumpTCounts, List.countP_cons, h] <;> omega

/-! The keys fed to the trend map are exactly the in-range founding years
present among the scored companies. -/

theorem mem_trendEvents_keys (cur y : ℤ) (scored : List ScoredCompany) :
    y ∈ (trendEvents cur scored).map Prod.fst ↔
      ((1990 < y ∧ y ≤ cur) ∧ ∃ c ∈ scored, yearOfRecord c.raw = y) := by
  simp only [trendEvents]
  constructor
  · intro h
    rcases List.mem_map.mp h with ⟨e, he, hey⟩
    rcases List.mem_filterMap.mp he with ⟨c, hc, hfc⟩
    by_cases hcond : 1990 < yearOfRecord c.raw ∧ yearOfRecord c.raw ≤ cur
    · rw [if_pos hcond] at hfc
      obtain rfl : (yearOfRecord c.raw, bumpTCounts c.themes) = e :=
        Option.some_injective _ hfc
      have hy : yearOfRecord c.raw = y := hey
      rw [hy] at hcond
      exact ⟨hcond, c, hc, hy⟩
    · rw [if_neg hcond] at hfc
      cases hfc
  · rintro ⟨hrange, c, hc, hcy⟩
    refine List.mem_map.mpr ⟨(yearOfRecord c.raw, bumpTCounts c.themes), ?_, hcy⟩
    refine List.mem_filterMap.mpr ⟨c, hc, ?_⟩
    rw [if_pos]
    rw [hcy]
    exact hrange

/-- Chaining the year-`y` updates is folding the counter over the year-`y`
bucket of the scored list. -/
theorem trend_chain (cur y : ℤ) (hy : 1990 < y ∧ y ≤ cur)
    (scored : List ScoredCompany) (v : TCounts) :
    chainApply y (trendEvents cur scored) v
      = foldBump (scored.filter (fun c => decide (yearOfRecord c.raw = y))) v := by
  unfold chainApply
  rw [trend_events_filter cur y hy scored]
  rw [List.foldl_map]
  rfl

/-! Transfer of the bucket counts from the scored list to the raw batch. -/

theorem bucket_total_transfer (batch : List Raw) (y : ℤ) :
    ((scoredOf batch).filter (fun c => decide (yearOfRecord c.raw = y))).length
      = bucketTotal y batch := by
  rw [← List.countP_eq_length_filter]
  exact countP_scoredOf batch (fun c => decide (yearOfRecord c.raw = y))
    (fun r => decide (yearOfRecord r = y)) (fun st i nr => rfl)

theorem bucket_theme_transfer (batch : List Raw) (y : ℤ) (sel : Themes → Bool) :
    ((scoredOf batch).filter (fun c => decide (yearOfRecord c.raw = y))).countP
        (fun c => sel c.themes)
      = bucketTheme y batch sel := by
  rw [List.countP_filter]
  rw [countP_scoredOf batch _ (fun r => sel (themesOf r) && decide (yearOfRecord r = y))
    (fun st i nr => rfl)]
  unfold bucketTheme
  refine List.countP_congr ?_
  intro r _
  rw [Bool.and_comm]

theorem scored_year_mem (batch : List Raw) (y : ℤ) :
    (∃ c ∈ scoredOf batch, yearOfRecord c.raw = y) ↔ ∃ r ∈ batch, yearOfRecord r = y := by
  have h := countP_scoredOf batch (fun c => decide (yearOfRecord c.raw = y))
    (fun r => decide (yearOfRecord r = y)) (fun st i nr => rfl)
  constructor
  · rintro ⟨c, hc, hcy⟩
    have hpos : 0 < (scoredOf batch).countP (fun c => decide (yearOfRecord c.raw = y)) :=
      List.countP_pos.mpr ⟨c, hc, by simp [hcy]⟩
    rw [h] at hpos
    rcases List.countP_pos.mp hpos with ⟨r, hr, hry⟩
    exact ⟨r, hr, by simpa using hry⟩
  · rintro ⟨r, hr, hry⟩
    have hpos : 0 < batch.countP (fun r => decide (yearOfRecord r = y)) :=
      List.countP_pos.mpr ⟨r, hr, by simp [hry]⟩
    rw [← h] at hpos
    rcases List.countP_pos.mp hpos with ⟨c, hc, hcy⟩
    exact ⟨c, hc, by simpa using hcy⟩

/-- Every entry of the trend map is keyed by an in-range year and carries
exactly the bucket counts of that year. -/
theorem trend_entry_spec (cur : ℤ) (batch : List Raw) :
    ∀ p ∈ (scoredOf batch).foldl (trendStep cur) ([] : List (ℤ × TCounts)),
      (1990 < p.1 ∧ p.1 ≤ cur) ∧
      p.2.count = bucketTotal p.1 batch ∧
      p.2.AI = bucketTheme p.1 batch (fun th => th.ai) ∧
      p.2.Climate = bucketTheme p.1 batch (fun th => th.climate) ∧
      p.2.Fintech = bucketTheme p.1 batch (fun th => th.fintech) ∧
      p.2.Healthcare = bucketTheme p.1 batch (fun th => th.healthcare) ∧
      p.2.SaaS = bucketTheme p.1 batch (fun th => th.saas) ∧
      p.2.Consumer = bucketTheme p.1 batch (fun th => th.consumer) := by
  intro p hp
  rw [trend_fold_eq cur (scoredOf batch) []] at hp
  have hnodup : (keysA (applyEvents ({} : TCounts) (trendEvents cur (scoredOf batch)) [])).Nodup :=
    nodup_keysA_applyEvents _ _ _ (by simp [keysA])
  have hlk : lookupA p.1 (applyEvents ({} : TCounts) (trendEvents cur (scoredOf batch)) [])
      = some p.2 :=
    lookupA_of_mem_nodup hnodup (by exact hp)
  rw [lookupA_applyEvents] at hlk
  simp only [lookupA] at hlk
  by_cases hmem : p.1 ∈ (trendEvents cur (scoredOf batch)).map Prod.fst
  · rw [if_pos hmem] at hlk
    obtain ⟨hrange, hex⟩ := (mem_trendEvents_keys cur p.1 (scoredOf batch)).mp hmem
    have hchain : chainApply p.1 (trendEvents cur (scoredOf batch)) {} = p.2 :=
      Option.some_injective _ hlk
    rw [trend_chain cur p.1 hrange] at hchain
    refine ⟨hrange, ?_, ?_, ?_, ?_, ?_, ?_, ?_⟩
    · rw [← hchain, foldBump_count, ← bucket_total_transfer batch p.1]
      simp
    · rw [← hchain, foldBump_AI, ← bucket_theme_transfer batch p.1 (fun th => th.ai)]
      simp
    · rw [← hchain, foldBump_Climate, ← bucket_theme_transfer batch p.1 (fun th => th.climate)]
      simp
    · rw [← hchain, foldBump_Fintech, ← bucket_theme_transfer batch p.1 (fun th => th.fintech)]
      simp
    · rw [← hchain, foldBump_Healthcare, ← bucket_theme_transfer batch p.1 (fun th => th.healthcare)]
      simp
    · rw [← hchain, foldBump_SaaS, ← bucket_theme_transfer batch p.1 (fun th => th.saas)]
      simp
    · rw [← hchain, foldBump_Consumer, ← bucket_theme_transfer batch p.1 (fun th => th.consumer)]
      simp
  · rw [if_neg hmem] at hlk
    cases hlk

/-- The years present in the trend map are exactly the in-range founding
years present in the batch. -/
theorem trend_keys_spec (cur : ℤ) (batch : List Raw) (y : ℤ) :
    (∃ p ∈ (scoredOf batch).foldl (trendStep cur) ([] : List (ℤ × TCounts)), p.1 = y) ↔
      ((1990 < y ∧ y ≤ cur) ∧ ∃ r ∈ batch, yearOfRecord r = y) := by
  rw [trend_fold_eq cur (scoredOf batch) []]
  have hkeys := keysA_applyEvents_mem ({} : TCounts) (trendEvents cur (scoredOf batch)) [] y
  constructor
  · rintro ⟨p, hp, rfl⟩
    have hin : p.1 ∈ keysA (applyEvents ({} : TCounts) (trendEvents cur (scoredOf batch)) []) :=
      List.mem_map_of_mem Prod.fst hp
    rw [hkeys] at hin
    rcases hin with h0 | hev
    · simp [keysA] at h0
    · obtain ⟨hrange, hex⟩ := (mem_trendEvents_keys cur p.1 (scoredOf batch)).mp hev
      exact ⟨hrange, (scored_year_mem batch p.1).mp hex⟩
  · rintro ⟨hrange, hex⟩
    have hev : y ∈ (trendEvents cur (scoredOf batch)).map Prod.fst :=
      (mem_trendEvents_keys cur y (scoredOf batch)).mpr
        ⟨hrange, (scored_year_mem batch y).mpr hex⟩
    have hin : y ∈ keysA (applyEvents ({} : TCounts) (trendEvents cur (scoredOf batch)) []) := by
      rw [hkeys]
      exact Or.inr hev
    rcases List.mem_map.mp hin with ⟨p, hp, hpy⟩
    exact ⟨p, hp, hpy⟩

/-- The sorted trend list is strictly ascending in the year. -/
theorem trends_sorted (cur : ℤ) (batch : List Raw) :
    (insSortBy (fun a b => a.year ≤ b.year)
        (((scoredOf batch).foldl (trendStep cur) ([] : List (ℤ × TCounts))).map mkTrend)).Pairwise
      (fun a b => a.year < b.year) := by
  have hnodup : (keysA (applyEvents ({} : TCounts) (trendEvents cur (scoredOf batch)) [])).Nodup :=
    nodup_keysA_applyEvents _ _ _ (by simp [keysA])
  rw [← trend_fold_eq cur (scoredOf batch) []] at hnodup
  have hpairkeys : ((scoredOf batch).foldl (trendStep cur)
      ([] : List (ℤ × TCounts))).Pairwise (fun p q => p.1 ≠ q.1) :=
    List.pairwise_map.mp hnodup
  have hpair : ((((scoredOf batch).foldl (trendStep cur)
      ([] : List (ℤ × TCounts))).map mkTrend)).Pairwise (fun a b => a.year ≠ b.year) := by
    rw [List.pairwise_map]
    exact hpairkeys.imp (fun h => h)
  have hsorted := @pairwise_insSortBy_stable ThemeTrend
    (fun a b => decide (a.year ≤ b.year)) (fun a b => a.year ≠ b.year)
    (fun a b => by simp only [decide_eq_true_eq]; omega)
    (fun a b c hab hbc => by
      simp only [decide_eq_true_eq] at hab hbc ⊢
      omega)
    _ hpair
  refine hsorted.imp ?_
  intro a b hab
  obtain ⟨hle, hne⟩ := hab
  simp only [decide_eq_true_eq] at hle hne
  rcases lt_or_eq_of_le hle with h | h
  · exact h
  · exact absurd h (hne h.ge)

/-- C6: for every batch, the trend output has exactly one entry per distinct
founding year in the range (1990, currentYear] present in the input, sorted
strictly ascending by year with no entry synthesized for gap years; each
entry's six theme percentages equal 100 x (bucket theme count / bucket size)
rounded to one decimal; and records with missing or unparseable founding
dates (year 0) are excluded from this aggregation only - the company list
still contains one entry per input record. -/
theorem claim_c6 (cur : ℤ) (batch : List Raw) :
    ((processData cur batch).trends).Pairwise (fun a b => a.year < b.year) ∧
    (∀ y : ℤ, (∃ t ∈ (processData cur batch).trends, t.year = y) ↔
      ((1990 < y ∧ y ≤ cur) ∧ ∃ r ∈ batch, yearOfRecord r = y)) ∧
    (∀ t ∈ (processData cur batch).trends,
      0 < bucketTotal t.year batch ∧
      t.AI = pct (bucketTheme t.year batch (fun th => th.ai)) (bucketTotal t.year batch) ∧
      t.Climate = pct (bucketTheme t.year batch (fun th => th.climate)) (bucketTotal t.year batch) ∧
      t.Fintech = pct (bucketTheme t.year batch (fun th => th.fintech)) (bucketTotal t.year batch) ∧
      t.Healthcare = pct (bucketTheme t.year batch (fun th => th.healthcare)) (bucketTotal t.year batch) ∧
      t.SaaS = pct (bucketTheme t.year batch (fun th => th.saas)) (bucketTotal t.year batch) ∧
      t.Consumer = pct (bucketTheme t.year batch (fun th => th.consumer)) (bucketTotal t.year batch)) ∧
    (processData cur batch).companies.length = batch.length := by
  have htr : (processData cur batch).trends
      = insSortBy (fun a b => a.year ≤ b.year)
          (((scoredOf batch).foldl (trendStep cur) ([] : List (ℤ × TCounts))).map mkTrend) := rfl
  refine ⟨?_, ?_, ?_, ?_⟩
  · rw [htr]
    exact trends_sorted cur batch
  · intro y
    rw [htr]
    constructor
    · rintro ⟨t, ht, hty⟩
      rcases List.mem_map.mp (mem_insSortBy.mp ht) with ⟨p, hp, rfl⟩
      exact (trend_keys_spec cur batch y).mp ⟨p, hp, hty⟩
    · intro h
      rcases (trend_keys_spec cur batch y).mpr h with ⟨p, hp, hpy⟩
      exact ⟨mkTrend p, mem_insSortBy.mpr (List.mem_map_of_mem mkTrend hp), hpy⟩
  · intro t ht
    rw [htr] at ht
    rcases List.mem_map.mp (mem_insSortBy.mp ht) with ⟨p, hp, rfl⟩
    obtain ⟨hrange, hcount, hAI, hCl, hFi, hHe, hSa, hCo⟩ := trend_entry_spec cur batch p hp
    have hpos : 0 < bucketTotal p.1 batch := by
      rcases ((trend_keys_spec cur batch p.1).mp ⟨p, hp, rfl⟩).2 with ⟨r, hr, hry⟩
      exact List.countP_pos_iff.mpr ⟨r, hr, by simp [hry]⟩
    simp only [mkTrend]
    exact ⟨hpos, by rw [hAI, hcount], by rw [hCl, hcount], by rw [hFi, hcount],
      by rw [hHe, hcount], by rw [hSa, hcount], by rw [hCo, hcount]⟩
  · have hc : (processData cur batch).companies
        = insSortBy (fun a b => jsLeB b.scores.comprehensive a.scores.comprehensive)
            (scoredOf batch) := rfl
    rw [hc, length_insSortBy]
    unfold scoredOf
    rw [length_mapIdxFrom, List.length_map]

/-! The investor aggregation: reduction of the keyed fold to per-investor
buckets of the batch. -/

theorem themeTally_ext {a b : ThemeTally} (h1 : a.AI = b.AI) (h2 : a.Climate = b.Climate)
    (h3 : a.Fintech = b.Fintech) (h4 : a.Healthcare = b.Healthcare)
    (h5 : a.SaaS = b.SaaS) (h6 : a.Consumer = b.Consumer) : a = b := by
  cases a
  cases b
  simp_all

theorem dedupAux_nodup : ∀ (l seen : List String),
    (dedupAux seen l).Nodup ∧ ∀ x ∈ dedupAux seen l, x ∉ seen := by
  intro l
  induction l with
  | nil => intro seen; simp [dedupAux]
  | cons x rest ih =>
    intro seen
    by_cases h : x ∈ seen
    · simp only [dedupAux, if_pos h]
      exact ih seen
    · simp only [dedupAux, if_neg h]
      obtain ⟨hnd, hdisj⟩ := ih (x :: seen)
      refine ⟨List.nodup_cons.mpr ⟨fun hx => ?_, hnd⟩, ?_⟩
      · exact (hdisj x hx) (List.mem_cons_self x seen)
      · intro z hz
        rcases List.mem_cons.mp hz with rfl | hz2
        · exact h
        · intro hzseen
          exact (hdisj z hz2) (List.mem_cons_of_mem _ hzseen)

theorem extractInvestors_nodup (r : Raw) : (extractInvestors r).Nodup := by
  unfold extractInvestors dedupKeepFirst
  exact (dedupAux_nodup _ []).1

theorem foldInv_tally_AI : ∀ (cs : List ScoredCompany) (v : InvData),
    (foldInv cs v).tally.AI = v.tally.AI + cs.countP (fun c => c.themes.ai) := by
  intro cs
  induction cs with
  | nil => intro v; simp [foldInv]
  | cons c rest ih =>
    intro v
    rw [show foldInv (c :: rest) v = foldInv rest (invUpdate c v) from rfl, ih]
    rcases Bool.eq_false_or_eq_true c.themes.ai with h | h <;>
      simp [invUpdate, bumpTally, List.countP_cons, h] <;> omega

theorem foldInv_tally_Climate : ∀ (cs : List ScoredCompany) (v : InvData),
    (foldInv cs v).tally.Climate = v.tally.Climate + cs.countP (fun c => c.themes.climate) := by
  intro cs
  induction cs with
  | nil => intro v; simp [foldInv]
  | cons c rest ih =>
    intro v
    rw [show foldInv (c :: rest) v = foldInv rest (invUpdate c v) from rfl, ih]
    rcases Bool.eq_false_or_eq_true c.themes.climate with h | h <;>
      simp [invUpdate, bumpTally, List.countP_cons, h] <;> omega

theorem foldInv_tally_Fintech : ∀ (cs : List ScoredCompany) (v : InvData),
    (foldInv cs v).tally.Fintech = v.tally.Fintech + cs.countP (fun c => c.themes.fintech) := by
  intro cs
  induction cs with
  | nil => intro v; simp [foldInv]
  | cons c rest ih =>
    intro v
    rw [show foldInv (c :: rest) v = foldInv rest (invUpdate c v) from rfl, ih]
    rcases Bool.eq_false_or_eq_true c.themes.fintech with h | h <;>
      simp [invUpdate, bumpTally, List.countP_cons, h] <;> omega

theorem foldInv_tally_Healthcare : ∀ (cs : List ScoredCompany) (v : InvData),
    (foldInv cs v).tally.Healthcare = v.tally.Healthcare + cs.countP (fun c => c.themes.healthcare) := by
  intro cs
  induction cs with
  | nil => intro v; simp [foldInv]
  | cons c rest ih =>
    intro v
    rw [show foldInv (c :: rest) v = foldInv rest (invUpdate c v) from rfl, ih]
    rcases Bool.eq_false_or_eq_true c.themes.healthcare with h | h <;>
      simp [invUpdate, bumpTally, List.countP_cons, h] <;> omega

theorem foldInv_tally_SaaS : ∀ (cs : List ScoredCompany) (v : InvData),
    (foldInv cs v).tally.SaaS = v.tally.SaaS + cs.countP (fun c => c.themes.saas) := by
  intro cs
  induction cs with
  | nil => intro v; simp [foldInv]
  | cons c rest ih =>
    intro v
    rw [show foldInv (c :: rest) v = foldInv rest (invUpdate c v) from rfl, ih]
    rcases Bool.eq_false_or_eq_true c.themes.saas with h | h <;>
      simp [invUpdate, bumpTally, List.countP_cons, h] <;> omega

theorem foldInv_tally_Consumer : ∀ (cs : List ScoredCompany) (v : InvData),
    (foldInv cs v).tally.Consumer = v.tally.Consumer + cs.countP (fun c => c.themes.consumer) := by
  intro cs
  induction cs with
  | nil => intro v; simp [foldInv]
  | cons c rest ih =>
    intro v
    rw [show foldInv (c :: rest) v = foldInv rest (invUpdate c v) from rfl, ih]
    rcases Bool.eq_false_or_eq_true c.themes.consumer with h | h <;>
      simp [invUpdate, bumpTally, List.countP_cons, h] <;> omega

theorem investorStep_eq_applyEvents (m : List (String × InvData)) (c : ScoredCompany) :
    investorStep m c
      = applyEvents ({} : InvData)
          ((extractInvestors c.raw).map (fun n => (n, invUpdate c))) m := by
  unfold investorStep applyEvents
  rw [List.foldl_map]

theorem inv_fold_eq : ∀ (scored : List ScoredCompany) (m : List (String × InvData)),
    scored.foldl investorStep m = applyEvents {} (invEvents scored) m := by
  intro scored
  induction scored with
  | nil => intro m; rfl
  | cons c rest ih =>
    intro m
    rw [List.foldl_cons, ih, investorStep_eq_applyEvents]
    have h : invEvents (c :: rest)
        = (extractInvestors c.raw).map (fun n => (n, invUpdate c)) ++ invEvents rest := by
      simp [invEvents]
    rw [h]
    unfold applyEvents
    rw [List.foldl_append]

theorem filter_map_fst {σ : Type} (g : σ) (name : String) (l : List String) :
    (l.map (fun n => (n, g))).filter (fun e => e.1 = name)
      = (l.filter (fun n => n = name)).map (fun n => (n, g)) := by
  induction l with
  | nil => rfl
  | cons x rest ih =>
    by_cases h : x = name <;> simp [List.filter_cons, h, ih]

theorem nodup_filter_eq (name : String) : ∀ l : List String, l.Nodup →
    l.filter (fun n => n = name) = if name ∈ l then [name] else [] := by
  intro l
  induction l with
  | nil => intro _; rfl
  | cons x rest ih =>
    intro hl
    rcases List.nodup_cons.mp hl with ⟨hx, hrest⟩
    by_cases h : x = name
    · subst h
      have hzero : rest.filter (fun n => n = x) = [] := by
        rw [ih hrest, if_neg hx]
      simp [List.filter_cons, hzero, List.mem_cons]
    · have hstep : List.filter (fun n => decide (n = name)) (x :: rest)
          = List.filter (fun n => decide (n = name)) rest := by
        simp [List.filter_cons, h]
      rw [hstep, ih hrest]
      have hne : ¬ (name = x) := fun hh => h hh.symm
      by_cases hm : name ∈ rest
      · simp [List.mem_cons, hne, hm]
      · simp [List.mem_cons, hne, hm]

theorem inv_events_filter (name : String) :
    ∀ scored : List ScoredCompany,
      (invEvents scored).filter (fun e => e.1 = name)
        = (scored.filter (fun c => decide (name ∈ extractInvestors c.raw))).map
            (fun c => (name, invUpdate c)) := by
  intro scored
  induction scored with
  | nil => rfl
  | cons c rest ih =>
    have h : invEvents (c :: rest)
        = (extractInvestors c.raw).map (fun n => (n, invUpdate c)) ++ invEvents rest := by
      simp [invEvents]
    rw [h, List.filter_append, ih, filter_map_fst,
      nodup_filter_eq name (extractInvestors c.raw) (extractInvestors_nodup c.raw)]
    by_cases hm : name ∈ extractInvestors c.raw
    · rw [if_pos hm]
      simp [List.filter_cons, hm]
    · rw [if_neg hm]
      simp [List.filter_cons, hm]

theorem inv_chain (name : String) (scored : List ScoredCompany) (v : InvData) :
    chainApply name (invEvents scored) v
      = foldInv (scored.filter (fun c => decide (name ∈ extractInvestors c.raw))) v := by
  unfold chainApply
  rw [inv_events_filter name scored, List.foldl_map]
  rfl

theorem foldInv_tally_transfer (batch : List Raw) (name : String) :
    (foldInv ((scoredOf batch).filter (fun c => decide (name ∈ extractInvestors c.raw)))
        {}).tally
      = batchTallyOf name batch := by
  refine themeTally_ext ?_ ?_ ?_ ?_ ?_ ?_
  · rw [foldInv_tally_AI, List.countP_filter,
      countP_scoredOf batch _ (fun r => (themesOf r).ai && decide (name ∈ extractInvestors r))
        (fun st i nr => rfl)]
    simp [batchTallyOf, invBucket, List.countP_filter]
  · rw [foldInv_tally_Climate, List.countP_filter,
      countP_scoredOf batch _ (fun r => (themesOf r).climate && decide (name ∈ extractInvestors r))
        (fun st i nr => rfl)]
    simp [batchTallyOf, invBucket, List.countP_filter]
  · rw [foldInv_tally_Fintech, List.countP_filter,
      countP_scoredOf batch _ (fun r => (themesOf r).fintech && decide (name ∈ extractInvestors r))
        (fun st i nr => rfl)]
    simp [batchTallyOf, invBucket, List.countP_filter]
  · rw [foldInv_tally_Healthcare, List.countP_filter,
      countP_scoredOf batch _ (fun r => (themesOf r).healthcare && decide (name ∈ extractInvestors r))
        (fun st i nr => rfl)]
    simp [batchTallyOf, invBucket, List.countP_filter]
  · rw [foldInv_tally_SaaS, List.countP_filter,
      countP_scoredOf batch _ (fun r => (themesOf r).saas && decide (name ∈ extractInvestors r))
        (fun st i nr => rfl)]
    simp [batchTallyOf, invBucket, List.countP_filter]
  · rw [foldInv_tally_Consumer, List.countP_filter,
      countP_scoredOf batch _ (fun r => (themesOf r).consumer && decide (name ∈ extractInvestors r))
        (fun st i nr => rfl)]
    simp [batchTallyOf, invBucket, List.countP_filter]

/-- Every entry of the investor map carries exactly the per-investor
tallies recomputed from the raw batch. -/
theorem inv_entry_tally (cur : ℤ) (batch : List Raw) :
    ∀ p ∈ (scoredOf batch).foldl investorStep ([] : List (String × InvData)),
      p.2.tally = batchTallyOf p.1 batch := by
  intro p hp
  rw [inv_fold_eq (scoredOf batch) []] at hp
  have hnodup : (keysA (applyEvents ({} : InvData) (invEvents (scoredOf batch)) [])).Nodup :=
    nodup_keysA_applyEvents _ _ _ (by simp [keysA])
  have hlk : lookupA p.1 (applyEvents ({} : InvData) (invEvents (scoredOf batch)) [])
      = some p.2 :=
    lookupA_of_mem_nodup hnodup (by exact hp)
  rw [lookupA_applyEvents] at hlk
  simp only [lookupA] at hlk
  by_cases hmem : p.1 ∈ (invEvents (scoredOf batch)).map Prod.fst
  · rw [if_pos hmem] at hlk
    have hchain : chainApply p.1 (invEvents (scoredOf batch)) {} = p.2 :=
      Option.some_injective _ hlk
    rw [inv_chain p.1 (scoredOf batch)] at hchain
    rw [← hchain]
    exact foldInv_tally_transfer batch p.1
  · rw [if_neg hmem] at hlk
    cases hlk

/-! The `topThemes` selection of `mkInvestorStat`. -/

theorem tallyEntries_val (t : ThemeTally) : ∀ p ∈ tallyEntries t, p.2 = tallyOfName t p.1 := by
  intro p hp
  simp only [tallyEntries, List.mem_cons, List.not_mem_nil, or_false] at hp
  rcases hp with rfl | rfl | rfl | rfl | rfl | rfl <;> simp [tallyOfName]

theorem tallyEntries_pairwise (t : ThemeTally) :
    (tallyEntries t).Pairwise (fun p q => catIdx p.1 < catIdx q.1) := by
  have hfst : (tallyEntries t).map Prod.fst
      = ["AI", "Climate", "Fintech", "Healthcare", "SaaS", "Consumer"] := rfl
  have h : ((tallyEntries t).map Prod.fst).Pairwise (fun a b => catIdx a < catIdx b) := by
    rw [hfst]
    decide
  exact (List.pairwise_map (f := Prod.fst)).mp h

theorem topThemes_len (t : ThemeTally) :
    ((((insSortBy (fun a b => b.2 ≤ a.2) (tallyEntries t)).filter
        (fun q => 0 < q.2)).take 3).map (fun q => q.1)).length ≤ 3 := by
  rw [List.length_map, List.length_take]
  omega

theorem topThemes_pos (t : ThemeTally) :
    ∀ n ∈ (((insSortBy (fun a b => b.2 ≤ a.2) (tallyEntries t)).filter
        (fun q => 0 < q.2)).take 3).map (fun q => q.1),
      0 < tallyOfName t n := by
  intro n hn
  rcases List.mem_map.mp hn with ⟨q, hq, rfl⟩
  have hq1 := List.mem_of_mem_take hq
  rcases List.mem_filter.mp hq1 with ⟨hq2, hppos⟩
  have hq3 : q ∈ tallyEntries t := mem_insSortBy.mp hq2
  have hval := tallyEntries_val t q hq3
  rw [← hval]
  simpa using hppos

theorem topThemes_sorted (t : ThemeTally) :
    ((((insSortBy (fun a b => b.2 ≤ a.2) (tallyEntries t)).filter
        (fun q => 0 < q.2)).take 3).map (fun q => q.1)).Pairwise (fun a b =>
      tallyOfName t b < tallyOfName t a ∨
      (tallyOfName t a = tallyOfName t b ∧ catIdx a < catIdx b)) := by
  have hsorted := @pairwise_insSortBy_stable (String × ℕ)
    (fun a b => decide (b.2 ≤ a.2)) (fun p q => catIdx p.1 < catIdx q.1)
    (fun a b => by simp only [decide_eq_true_eq]; omega)
    (fun a b c hab hbc => by
      simp only [decide_eq_true_eq] at hab hbc ⊢
      omega)
    (tallyEntries t) (tallyEntries_pairwise t)
  have hsub : (((insSortBy (fun a b => b.2 ≤ a.2) (tallyEntries t)).filter
      (fun q => 0 < q.2)).take 3).Sublist
        (insSortBy (fun a b => b.2 ≤ a.2) (tallyEntries t)) :=
    (List.take_sublist _ _).trans (List.filter_sublist _)
  have hpair2 := hsorted.sublist hsub
  rw [List.pairwise_map]
  refine List.Pairwise.imp_of_mem ?_ hpair2
  intro a b ha hb hab
  obtain ⟨hle, htie⟩ := hab
  simp only [decide_eq_true_eq] at hle htie
  have ha2 : a ∈ tallyEntries t :=
    mem_insSortBy.mp (List.mem_of_mem_filter (List.mem_of_mem_take ha))
  have hb2 : b ∈ tallyEntries t :=
    mem_insSortBy.mp (List.mem_of_mem_filter (List.mem_of_mem_take hb))
  rw [← tallyEntries_val t a ha2, ← tallyEntries_val t b hb2]
  rcases lt_or_eq_of_le hle with h | h
  · exact Or.inl h
  · exact Or.inr ⟨h.symm, htie h.ge⟩

/-- C7: for every InvestorStat produced, topThemes has at most three
entries, each named theme has a nonzero tally for that investor
(recomputed directly from the batch), and the list is sorted by tally
descending with ties broken by the fixed category order AI, Climate,
Fintech, Healthcare, SaaS, Consumer. -/
theorem claim_c7 (cur : ℤ) (batch : List Raw) :
    ∀ s ∈ (processData cur batch).investors,
      s.topThemes.length ≤ 3 ∧
      (∀ n ∈ s.topThemes, 0 < tallyOfName (batchTallyOf s.name batch) n) ∧
      s.topThemes.Pairwise (fun a b =>
        tallyOfName (batchTallyOf s.name batch) b < tallyOfName (batchTallyOf s.name batch) a ∨
        (tallyOfName (batchTallyOf s.name batch) a = tallyOfName (batchTallyOf s.name batch) b ∧
          catIdx a < catIdx b)) := by
  intro s hs
  have hi : (processData cur batch).investors
      = (insSortBy (fun a b => b.count ≤ a.count)
          (((scoredOf batch).foldl investorStep ([] : List (String × InvData))).map
            (fun p => mkInvestorStat p.1 p.2))).take 50 := rfl
  rw [hi] at hs
  have hs1 := List.mem_of_mem_take hs
  have hs2 := mem_insSortBy.mp hs1
  rcases List.mem_map.mp hs2 with ⟨p, hpmem, rfl⟩
  have htally : p.2.tally = batchTallyOf p.1 batch := inv_entry_tally cur batch p hpmem
  simp only [mkInvestorStat]
  rw [← htally]
  exact ⟨topThemes_len p.2.tally, topThemes_pos p.2.tally, topThemes_sorted p.2.tally⟩

/-- Witness for claim C7: on `invDemoBatch` the produced "Fund X" stat has
topThemes ["Fintech", "SaaS"], both with nonzero tallies, sorted by tally
descending. -/
theorem claim_c7_witness :
    fundXStat ∈ (processData 2026 invDemoBatch).investors ∧
    (fundXStat.topThemes.length ≤ 3 ∧
      (∀ n ∈ fundXStat.topThemes, 0 < tallyOfName (batchTallyOf fundXStat.name invDemoBatch) n) ∧
      fundXStat.topThemes.Pairwise (fun a b =>
        tallyOfName (batchTallyOf fundXStat.name invDemoBatch) b
            < tallyOfName (batchTallyOf fundXStat.name invDemoBatch) a ∨
        (tallyOfName (batchTallyOf fundXStat.name invDemoBatch) a
            = tallyOfName (batchTallyOf fundXStat.name invDemoBatch) b ∧
          catIdx a < catIdx b))) :=
  ⟨by with_unfolding_all decide,
   claim_c7 2026 invDemoBatch fundXStat (by with_unfolding_all decide)⟩

end CapitalCompass
